import Mathlib

/-!
# Trie dictionary (`src/source.cpp`): shallow embedding and verified properties

The C++ program keeps a dictionary in a 26-way trie.  This file embeds the
`TrieTreeNode` / `TrieTree` data model and the member functions `insertWord`,
`searchWord`, `updateWord`, `deleteWord`, `getSuggestions` together with the private
helpers `hasChildren`, `findSuggestions`, `deleteWordHelper` and
`isValidWordOrMeaning`, and proves properties of them.

Modelling conventions.

* A C++ `std::string` is a `List Char`; a `char` is a `Char` and its integer value is
  `Char.toNat`.
* A value of type `TrieTreeNode` below is a C++ `TrieTreeNode*`: either `NULL` or an
  exclusively owned heap node.  In-place mutation through a pointer is modelled by
  returning the new pointee.
* A member function returns `Option`: `none` stands for undefined behaviour of the
  C++ code (an array index outside `0..25`, a null dereference).
* `delete p` frees the one node `p` points to (the struct has no destructor, so the
  nodes below it are leaked); the embedding records only that the link becomes `NULL`.
-/

namespace TrieCpp

/-! ## C library functions used by the program ("C" locale) -/

/-- The C function `isalpha` in the "C" locale: true exactly for `A`..`Z` and `a`..`z`. -/
def isalpha (ch : Char) : Bool :=
  (65 ≤ ch.toNat && ch.toNat ≤ 90) || (97 ≤ ch.toNat && ch.toNat ≤ 122)

/-- The C function `tolower` in the "C" locale: `A`..`Z` are mapped to `a`..`z`, every
other character is returned unchanged. -/
def tolower (ch : Char) : Char :=
  if 65 ≤ ch.toNat ∧ ch.toNat ≤ 90 then Char.ofNat (ch.toNat + 32) else ch

/-- Conversion of a C string literal to `std::string` (the `const char*` constructor):
the characters of the literal up to, and not including, its first NUL character. -/
def stringOfLiteral (lit : List Char) : List Char :=
  lit.takeWhile (fun ch => ch.toNat != 0)

/-- The comparison `operator<` of `std::string`: lexicographic on the character values,
a proper prefix being smaller. -/
def stringLt : List Char → List Char → Bool
  | [], [] => false
  | [], _ :: _ => true
  | _ :: _, [] => false
  | a :: as, b :: bs =>
    if a.toNat < b.toNat then true
    else if b.toNat < a.toNat then false
    else stringLt as bs

/-- The effect of `std::sort(v.begin(), v.end())` on a vector of strings: the ascending
rearrangement under `operator<` (unique, since the order is total). -/
def sortStrings (v : List (List Char)) : List (List Char) :=
  v.insertionSort (fun a b => stringLt b a = false)

/-! ## Data model -/

/-- A `TrieTreeNode*`: `NULL`, or a node with the fields `data`, `isEndOfWord`,
`meaning` and the array `children[26]`. -/
inductive TrieTreeNode : Type
  | NULL
  | node (data : Char) (isEndOfWord : Bool) (meaning : List Char)
      (children : Fin 26 → TrieTreeNode)

/-- The test `!p` on a pointer. -/
def TrieTreeNode.isNull : TrieTreeNode → Bool
  | .NULL => true
  | .node _ _ _ _ => false

/-- The constructor `TrieTreeNode(char ch)`: not end of word, empty meaning, all 26
children `NULL`. -/
def newTrieTreeNode (ch : Char) : TrieTreeNode :=
  .node ch false [] (fun _ => .NULL)

/-- The class `TrieTree`: its only member is the pointer `root`. -/
structure TrieTree where
  root : TrieTreeNode

/-- The constructor `TrieTree()`: the root is a fresh node for the character NUL. -/
def TrieTree.new : TrieTree :=
  ⟨newTrieTreeNode (Char.ofNat 0)⟩

/-- The array subscript `children[index]` for an `int index`: the slot inside the array
`children[26]`, or `none` when the index is out of bounds. -/
def slot (index : Int) : Option (Fin 26) :=
  if h : 0 ≤ index ∧ index < 26 then some ⟨index.toNat, by omega⟩ else none

/-- The expression `ch - 'a'` (an `int`). -/
def letterIndex (ch : Char) : Int :=
  (ch.toNat : Int) - 97

/-! ## Private helpers -/

/-- The method `isValidWordOrMeaning`: every character satisfies `isalpha`. -/
def isValidWordOrMeaning : List Char → Bool
  | [] => true
  | ch :: rest => if !isalpha ch then false else isValidWordOrMeaning rest

/-- The method `hasChildren`: some entry of `node->children` is not `NULL`.  The only
caller passes a node it has already dereferenced, so the `NULL` case is never reached. -/
def hasChildren : TrieTreeNode → Bool
  | .NULL => false
  | .node _ _ _ children => (List.finRange 26).any (fun i => !(children i).isNull)

/-- The method `findSuggestions`: the node itself first, then the children `0..25` in
order, each non-null child with `currentPrefix` extended by the letter `'a' + i`.  The
argument `suggestions` is the vector passed by reference and the result is its final
content.  Every caller passes a non-null node, so the `NULL` case is never reached. -/
def findSuggestions : TrieTreeNode → List Char → List (List Char) → List (List Char)
  | .NULL, _, suggestions => suggestions
  | .node _ isEndOfWord _ children, currentPrefix, suggestions =>
    (List.finRange 26).foldl
      (fun acc i =>
        if (children i).isNull then acc
        else findSuggestions (children i) (currentPrefix ++ [Char.ofNat (97 + i.val)]) acc)
      (if isEndOfWord then suggestions ++ [currentPrefix] else suggestions)

/-- The method `deleteWordHelper`.  The result is the returned `bool` together with the
new state of the node behind the reference `node` (the callee never reassigns the
pointer itself).  When the recursive call returns `true` the caller executes
`delete node->children[index]; node->children[index] = NULL`, whatever that child still
holds. -/
def deleteWordHelper : TrieTreeNode → List Char → Nat → Option (Bool × TrieTreeNode)
  | .NULL, _, _ => some (false, .NULL)
  | .node data isEndOfWord meaning children, word, depth =>
    if depth = word.length then
      if isEndOfWord then some (true, .node data false [] children)
      else some (false, .node data isEndOfWord meaning children)
    else
      match word.get? depth with
      | none => none
      | some ch =>
        match slot (letterIndex ch) with
        | none => none
        | some index =>
          match deleteWordHelper (children index) word (depth + 1) with
          | none => none
          | some (true, _) =>
            let node := TrieTreeNode.node data isEndOfWord meaning
              (Function.update children index .NULL)
            some (isEndOfWord || !hasChildren node, node)
          | some (false, child) =>
            some (false, .node data isEndOfWord meaning (Function.update children index child))

/-! ## Public operations -/

/-- The loop and the final stores of `insertWord`, started with `current` at the given
node; the result is the new state of that node. -/
def insertWordLoop : List Char → List Char → TrieTreeNode → Option TrieTreeNode
  | _, _, .NULL => none
  | [], meaning, .node data _ _ children => some (.node data true meaning children)
  | ch :: rest, meaning, .node data isEndOfWord oldMeaning children =>
    match slot (letterIndex (tolower ch)) with
    | none => none
    | some index =>
      match insertWordLoop rest meaning
          (if (children index).isNull then newTrieTreeNode (tolower ch) else children index) with
      | none => none
      | some child =>
        some (.node data isEndOfWord oldMeaning (Function.update children index child))

/-- The method `insertWord`: the returned `bool` and the trie afterwards. -/
def insertWord (t : TrieTree) (word meaning : List Char) : Option (Bool × TrieTree) :=
  if !(isValidWordOrMeaning word && isValidWordOrMeaning meaning) then some (false, t)
  else
    match insertWordLoop word meaning t.root with
    | none => none
    | some root => some (true, ⟨root⟩)

/-- The loop and the final return of `searchWord`, started with `current` at the given
node. -/
def searchWordLoop : List Char → TrieTreeNode → Option (List Char)
  | _, .NULL => none
  | [], .node _ _ meaning _ => some meaning
  | ch :: rest, .node _ _ _ children =>
    match slot (letterIndex (tolower ch)) with
    | none => none
    | some index =>
      if (children index).isNull then some (stringOfLiteral [])
      else searchWordLoop rest (children index)

/-- The method `searchWord`. -/
def searchWord (t : TrieTree) (word : List Char) : Option (List Char) :=
  if !isValidWordOrMeaning word then some (stringOfLiteral [Char.ofNat 0])
  else searchWordLoop word t.root

/-- The loop and the final test of `updateWord`, started with `current` at the given
node; the result is the returned `bool` and the new state of that node. -/
def updateWordLoop : List Char → List Char → TrieTreeNode → Option (Bool × TrieTreeNode)
  | _, _, .NULL => none
  | [], newMeaning, .node data isEndOfWord meaning children =>
    if isEndOfWord then some (true, .node data isEndOfWord newMeaning children)
    else some (false, .node data isEndOfWord meaning children)
  | ch :: rest, newMeaning, .node data isEndOfWord meaning children =>
    match slot (letterIndex (tolower ch)) with
    | none => none
    | some index =>
      if (children index).isNull then some (false, .node data isEndOfWord meaning children)
      else
        match updateWordLoop rest newMeaning (children index) with
        | none => none
        | some (b, child) =>
          some (b, .node data isEndOfWord meaning (Function.update children index child))

/-- The method `updateWord`: the returned `bool` and the trie afterwards. -/
def updateWord (t : TrieTree) (word newMeaning : List Char) : Option (Bool × TrieTree) :=
  if !(isValidWordOrMeaning word && isValidWordOrMeaning newMeaning) then some (false, t)
  else
    match updateWordLoop word newMeaning t.root with
    | none => none
    | some (b, root) => some (b, ⟨root⟩)

/-- The method `deleteWord`: the trie afterwards (the method returns `void`). -/
def deleteWord (t : TrieTree) (word : List Char) : Option TrieTree :=
  if isValidWordOrMeaning word then
    match deleteWordHelper t.root word 0 with
    | none => none
    | some (_, root) => some ⟨root⟩
  else some t

/-- The method `getSuggestions` from the point where `current` is at the given node and
the characters `rest` of `prefix` are still to be walked. -/
def getSuggestionsLoop : List Char → List Char → TrieTreeNode → Option (List (List Char))
  | _, _, .NULL => none
  | [], pre, .node data isEndOfWord meaning children =>
    let suggestions := sortStrings
      (findSuggestions (.node data isEndOfWord meaning children) pre [])
    some (suggestions.take (min suggestions.length 10))
  | ch :: rest, pre, .node _ _ _ children =>
    match slot (letterIndex (tolower ch)) with
    | none => none
    | some index =>
      if (children index).isNull then some []
      else getSuggestionsLoop rest pre (children index)

/-- The method `getSuggestions`. -/
def getSuggestions (t : TrieTree) (pre : List Char) : Option (List (List Char)) :=
  getSuggestionsLoop pre pre t.root

/-! ## Vocabulary of the specification -/

/-- A string made only of the letters `A`..`Z` and `a`..`z` (the empty string included). -/
def IsAlphabetic (s : List Char) : Prop :=
  ∀ ch ∈ s, (65 ≤ ch.toNat ∧ ch.toNat ≤ 90) ∨ (97 ≤ ch.toNat ∧ ch.toNat ≤ 122)

instance (s : List Char) : Decidable (IsAlphabetic s) := by
  unfold IsAlphabetic
  infer_instance

/-- A string made only of the lowercase letters `a`..`z`. -/
def IsLowercase (w : List Char) : Prop :=
  ∀ ch ∈ w, 97 ≤ ch.toNat ∧ ch.toNat ≤ 122

instance (w : List Char) : Decidable (IsLowercase w) := by
  unfold IsLowercase
  infer_instance

/-- Equality of two words up to letter case: they have the same case-folded form. -/
def SameUpToCase (w w' : List Char) : Prop :=
  w'.map tolower = w.map tolower

instance (w w' : List Char) : Decidable (SameUpToCase w w') := by
  unfold SameUpToCase
  infer_instance

/-- The node reached from `n` along the path spelled by `w`, each letter `a`..`z`
selecting the child `0`..`25`; `NULL` when the path does not exist. -/
def nodeAt : TrieTreeNode → List Char → TrieTreeNode
  | n, [] => n
  | .NULL, _ :: _ => .NULL
  | .node _ _ _ children, ch :: rest =>
    match slot (letterIndex ch) with
    | none => .NULL
    | some index => nodeAt (children index) rest

/-- The flag `isEndOfWord` of a node (`false` for `NULL`). -/
def TrieTreeNode.isTerminal : TrieTreeNode → Bool
  | .NULL => false
  | .node _ isEndOfWord _ _ => isEndOfWord

/-- The field `meaning` of a node (empty for `NULL`). -/
def TrieTreeNode.meaningOf : TrieTreeNode → List Char
  | .NULL => []
  | .node _ _ meaning _ => meaning

/-- A stored word of the trie: the path spelled by `w` exists from the root and ends in
a node whose `isEndOfWord` flag is set. -/
def Stored (t : TrieTree) (w : List Char) : Prop :=
  (nodeAt t.root w).isTerminal = true

instance (t : TrieTree) (w : List Char) : Decidable (Stored t w) := by
  unfold Stored
  infer_instance

/-- Reference definition of the suggestions for `pre`, following the specification:
`out` is the first 10 entries of the ascending (lexicographic, repetition-free) list of
all stored words that begin with `pre`. -/
def IsSuggestionReference (t : TrieTree) (pre : List Char) (out : List (List Char)) : Prop :=
  ∃ all : List (List Char),
    all.Sorted (fun a b => stringLt a b = true) ∧
    (∀ w, w ∈ all ↔ (Stored t w ∧ pre <+: w)) ∧
    out = all.take 10

/-- Every node of the tree at and below `n` has fields `isEndOfWord`, `meaning`
satisfying `Q`. -/
def TrieTreeNode.All (Q : Bool → List Char → Prop) : TrieTreeNode → Prop
  | .NULL => True
  | .node _ isEndOfWord meaning children =>
    Q isEndOfWord meaning ∧ ∀ i, TrieTreeNode.All Q (children i)

/-- Every node of the tree at and below `n` is terminal or has at least one child. -/
def TrieTreeNode.Live : TrieTreeNode → Prop
  | .NULL => True
  | .node _ isEndOfWord _ children =>
    (isEndOfWord = true ∨ ∃ i, (children i).isNull = false) ∧
      ∀ i, TrieTreeNode.Live (children i)

/-- Every node strictly below `n` is terminal or has at least one child. -/
def TrieTreeNode.ChildrenLive : TrieTreeNode → Prop
  | .NULL => True
  | .node _ _ _ children => ∀ i, (children i).Live

/-- The tries reachable from the empty trie by calls of `insertWord`, `updateWord` and
`deleteWord` that return (with any arguments), the meanings passed to `insertWord` and
`updateWord` satisfying `P`. -/
inductive ReachableWith (P : List Char → Prop) : TrieTree → Prop
  | new : ReachableWith P TrieTree.new
  | insertWord {t t' : TrieTree} {b : Bool} (word meaning : List Char) :
      ReachableWith P t → P meaning → insertWord t word meaning = some (b, t') →
      ReachableWith P t'
  | updateWord {t t' : TrieTree} {b : Bool} (word newMeaning : List Char) :
      ReachableWith P t → P newMeaning → updateWord t word newMeaning = some (b, t') →
      ReachableWith P t'
  | deleteWord {t t' : TrieTree} (word : List Char) :
      ReachableWith P t → deleteWord t word = some t' → ReachableWith P t'

/-- The tries reachable from the empty trie by calls of `insertWord`, `updateWord` and
`deleteWord` that return, with any arguments. -/
def Reachable (t : TrieTree) : Prop :=
  ReachableWith (fun _ => True) t

/-- The trie built from the empty trie by the calls `insertWord(word, meaning)` for the
given entries, in order. -/
def trieOf (entries : List (String × String)) : TrieTree :=
  entries.foldl
    (fun t entry =>
      match insertWord t entry.1.toList entry.2.toList with
      | some (_, t') => t'
      | none => t)
    TrieTree.new

/-! ## Characters and array slots -/

theorem toNat_ofNat_small (n : Nat) (h : n < 55296) : (Char.ofNat n).toNat = n := by
  have hv : n.isValidChar := Or.inl h
  simp [Char.ofNat, hv, Char.ofNatAux, Char.toNat]
  rfl

theorem char_eq_of_toNat_eq {a b : Char} (h : a.toNat = b.toNat) : a = b := by
  rw [← Char.ofNat_toNat a, ← Char.ofNat_toNat b, h]

theorem tolower_toNat (ch : Char) :
    (tolower ch).toNat = if 65 ≤ ch.toNat ∧ ch.toNat ≤ 90 then ch.toNat + 32 else ch.toNat := by
  unfold tolower
  split
  · rename_i h
    exact toNat_ofNat_small _ (by omega)
  · rfl

theorem tolower_of_lower {ch : Char} (h : 97 ≤ ch.toNat ∧ ch.toNat ≤ 122) : tolower ch = ch := by
  unfold tolower
  rw [if_neg (by omega)]

theorem slot_some_iff (index : Int) (i : Fin 26) :
    slot index = some i ↔ (i.val : Int) = index := by
  unfold slot
  split
  · rename_i h
    simp only [Option.some.injEq]
    constructor
    · intro hi; rw [← hi]; simp; omega
    · intro hi; apply Fin.ext; simp; omega
  · rename_i h
    constructor
    · intro hi; cases hi
    · intro hi
      have := i.isLt
      omega

theorem slot_eq_some (index : Int) (h : 0 ≤ index ∧ index < 26) :
    ∃ i : Fin 26, slot index = some i := by
  refine ⟨⟨index.toNat, by omega⟩, ?_⟩
  simp [slot, h]

theorem slot_of_alpha {ch : Char}
    (h : (65 ≤ ch.toNat ∧ ch.toNat ≤ 90) ∨ (97 ≤ ch.toNat ∧ ch.toNat ≤ 122)) :
    ∃ i : Fin 26, slot (letterIndex (tolower ch)) = some i := by
  apply slot_eq_some
  unfold letterIndex
  rw [tolower_toNat]
  split <;> omega

theorem slot_of_lower {ch : Char} (h : 97 ≤ ch.toNat ∧ ch.toNat ≤ 122) :
    ∃ i : Fin 26, slot (letterIndex ch) = some i := by
  apply slot_eq_some
  unfold letterIndex
  omega

theorem isalpha_iff (ch : Char) :
    isalpha ch = true ↔ (65 ≤ ch.toNat ∧ ch.toNat ≤ 90) ∨ (97 ≤ ch.toNat ∧ ch.toNat ≤ 122) := by
  simp [isalpha]

theorem isValidWordOrMeaning_iff (s : List Char) :
    isValidWordOrMeaning s = true ↔ IsAlphabetic s := by
  induction s with
  | nil => simp [isValidWordOrMeaning, IsAlphabetic]
  | cons ch rest ih =>
    unfold isValidWordOrMeaning
    by_cases hc : isalpha ch = true
    · have hc2 := (isalpha_iff ch).mp hc
      simp only [hc, Bool.not_true, Bool.false_eq_true, if_false, ih]
      constructor
      · intro h x hx
        rcases List.mem_cons.mp hx with rfl | hx
        · exact hc2
        · exact h x hx
      · intro h x hx
        exact h x (List.mem_cons_of_mem _ hx)
    · have hc2 : ¬ ((65 ≤ ch.toNat ∧ ch.toNat ≤ 90) ∨ (97 ≤ ch.toNat ∧ ch.toNat ≤ 122)) :=
        fun h => hc ((isalpha_iff ch).mpr h)
      simp only [Bool.not_eq_true] at hc
      simp only [hc, Bool.not_false, if_true, Bool.false_eq_true, false_iff]
      intro h
      exact hc2 (h ch (List.mem_cons_self _ _))

theorem IsLowercase.isAlphabetic {w : List Char} (h : IsLowercase w) : IsAlphabetic w :=
  fun ch hch => Or.inr (h ch hch)

theorem map_tolower_of_lowercase {w : List Char} (h : IsLowercase w) : w.map tolower = w := by
  induction w with
  | nil => rfl
  | cons ch rest ih =>
    rw [List.map_cons, tolower_of_lower (h ch (List.mem_cons_self _ _)),
      ih (fun x hx => h x (List.mem_cons_of_mem _ hx))]

/-! ## Insertion followed by search -/

theorem searchWordLoop_ne_null {w : List Char} {n : TrieTreeNode} {r : List Char}
    (h : searchWordLoop w n = some r) : n.isNull = false := by
  cases n with
  | NULL => cases w <;> simp [searchWordLoop] at h
  | node d e m ch => rfl

theorem insertWordLoop_searchWordLoop (w : List Char) :
    ∀ (w' meaning : List Char) (n : TrieTreeNode), n.isNull = false → IsAlphabetic w →
      SameUpToCase w w' →
      ∃ n', insertWordLoop w meaning n = some n' ∧ n'.isNull = false ∧
        searchWordLoop w' n' = some meaning := by
  induction w with
  | nil =>
    intro w' meaning n hn _ hw'
    have hw'' : w' = [] := by simpa [SameUpToCase] using hw'
    subst hw''
    cases n with
    | NULL => simp [TrieTreeNode.isNull] at hn
    | node d e m ch => exact ⟨_, rfl, rfl, rfl⟩
  | cons c rest ih =>
    intro w' meaning n hn hal hw'
    cases w' with
    | nil => simp [SameUpToCase] at hw'
    | cons c' rest' =>
      simp only [SameUpToCase, List.map_cons, List.cons.injEq] at hw'
      obtain ⟨hc, hrest⟩ := hw'
      cases n with
      | NULL => simp [TrieTreeNode.isNull] at hn
      | node d e m ch =>
        obtain ⟨i, hi⟩ := slot_of_alpha (hal c (List.mem_cons_self _ _))
        obtain ⟨child, hins, hnn, hsearch⟩ := ih rest' meaning
          (if (ch i).isNull then newTrieTreeNode (tolower c) else ch i)
          (by split <;> simp_all [newTrieTreeNode, TrieTreeNode.isNull])
          (fun x hx => hal x (List.mem_cons_of_mem _ hx)) hrest
        refine ⟨.node d e m (Function.update ch i child), ?_, rfl, ?_⟩
        · simp only [insertWordLoop, hi, hins]
        · simp only [searchWordLoop, hc, hi, Function.update_same, hnn, hsearch]
          simp

theorem isAlphabetic_of_sameUpToCase {w w' : List Char} (hw : IsAlphabetic w)
    (h : SameUpToCase w w') : IsAlphabetic w' := by
  unfold SameUpToCase at h
  induction w generalizing w' with
  | nil =>
    have : w' = [] := by simpa using h
    subst this
    exact fun _ hx => absurd hx (List.not_mem_nil _)
  | cons c rest ih =>
    cases w' with
    | nil => simp at h
    | cons c' rest' =>
      simp only [List.map_cons, List.cons.injEq] at h
      intro x hx
      rcases List.mem_cons.mp hx with rfl | hx
      · have h1 := congrArg Char.toNat h.1
        have hc := hw c (List.mem_cons_self _ _)
        rw [tolower_toNat, tolower_toNat] at h1
        split at h1 <;> split at h1 <;> omega
      · exact ih (fun y hy => hw y (List.mem_cons_of_mem _ hy)) h.2 x hx

theorem insertWord_searchWord_general (t : TrieTree) (word meaning word' : List Char)
    (hroot : t.root.isNull = false) (hw : IsAlphabetic word) (hm : IsAlphabetic meaning)
    (hw' : SameUpToCase word word') :
    ∃ t', insertWord t word meaning = some (true, t') ∧ searchWord t' word' = some meaning := by
  obtain ⟨n', hins, _, hsearch⟩ :=
    insertWordLoop_searchWordLoop word word' meaning t.root hroot hw hw'
  refine ⟨⟨n'⟩, ?_, ?_⟩
  · simp [insertWord, (isValidWordOrMeaning_iff word).mpr hw,
      (isValidWordOrMeaning_iff meaning).mpr hm, hins]
  · simp [searchWord, (isValidWordOrMeaning_iff word').mpr (isAlphabetic_of_sameUpToCase hw hw'),
      hsearch]

/-! ## Deletion -/

theorem nodeAt_NULL (w : List Char) : nodeAt .NULL w = .NULL := by
  cases w <;> rfl

theorem nodeAt_cons_node (d : Char) (e : Bool) (m : List Char) (ch : Fin 26 → TrieTreeNode)
    (c : Char) (r : List Char) (i : Fin 26) (hi : slot (letterIndex c) = some i) :
    nodeAt (.node d e m ch) (c :: r) = nodeAt (ch i) r := by
  simp only [nodeAt, hi]

theorem isTerminal_ne_null {n : TrieTreeNode} (h : n.isTerminal = true) : n.isNull = false := by
  cases n with
  | NULL => simp [TrieTreeNode.isTerminal] at h
  | node d e m ch => rfl

theorem deleteWordHelper_step (d : Char) (e : Bool) (m : List Char)
    (ch : Fin 26 → TrieTreeNode) (pre : List Char) (c : Char) (r : List Char) (i : Fin 26)
    (hi : slot (letterIndex c) = some i) :
    deleteWordHelper (.node d e m ch) (pre ++ c :: r) pre.length =
      match deleteWordHelper (ch i) ((pre ++ [c]) ++ r) (pre ++ [c]).length with
      | none => none
      | some (true, _) =>
        some (e || !hasChildren (.node d e m (Function.update ch i .NULL)),
          .node d e m (Function.update ch i .NULL))
      | some (false, child) => some (false, .node d e m (Function.update ch i child)) := by
  have hlen : ¬ pre.length = (pre ++ c :: r).length := by simp
  have hget : (pre ++ c :: r).get? pre.length = some c := by
    rw [List.get?_eq_getElem?, List.getElem?_append_right (le_refl _)]
    simp
  have happ : (pre ++ [c]) ++ r = pre ++ c :: r := by simp
  rw [deleteWordHelper, if_neg hlen, hget]
  simp only [hi, happ, List.length_append, List.length_singleton]

theorem deleteWordHelper_stored (rest : List Char) :
    ∀ (pre : List Char) (n : TrieTreeNode), IsLowercase rest →
      (nodeAt n rest).isTerminal = true →
      ∃ b n', deleteWordHelper n (pre ++ rest) pre.length = some (b, n') ∧
        n'.isNull = false ∧ searchWordLoop rest n' = some [] := by
  induction rest with
  | nil =>
    intro pre n _ hterm
    cases n with
    | NULL => simp [nodeAt, TrieTreeNode.isTerminal] at hterm
    | node d e m ch =>
      have he : e = true := by simpa [nodeAt, TrieTreeNode.isTerminal] using hterm
      subst he
      exact ⟨true, .node d false [] ch, by simp [deleteWordHelper], rfl, rfl⟩
  | cons c r ih =>
    intro pre n hlow hterm
    cases n with
    | NULL => simp [nodeAt, TrieTreeNode.isTerminal] at hterm
    | node d e m ch =>
      have hc := hlow c (List.mem_cons_self _ _)
      obtain ⟨i, hi⟩ := slot_of_lower hc
      have hi' : slot (letterIndex (tolower c)) = some i := by rw [tolower_of_lower hc]; exact hi
      rw [nodeAt_cons_node d e m ch c r i hi] at hterm
      obtain ⟨b, c', hdel, hnn, hsearch⟩ := ih (pre ++ [c]) (ch i)
        (fun x hx => hlow x (List.mem_cons_of_mem _ hx)) hterm
      rw [deleteWordHelper_step d e m ch pre c r i hi, hdel]
      cases b with
      | true =>
        refine ⟨_, _, rfl, rfl, ?_⟩
        simp [searchWordLoop, hi', TrieTreeNode.isNull, stringOfLiteral]
      | false =>
        refine ⟨_, _, rfl, rfl, ?_⟩
        simp [searchWordLoop, hi', hnn, hsearch]

theorem hasChildren_node (d : Char) (e : Bool) (m : List Char) (ch : Fin 26 → TrieTreeNode) :
    hasChildren (.node d e m ch) = true ↔ ∃ i, (ch i).isNull = false := by
  simp [hasChildren, List.any_eq_true, List.mem_finRange]

theorem hasChildren_fresh (d : Char) (e : Bool) (m : List Char) :
    hasChildren (.node d e m (fun _ => .NULL)) = false := by
  rw [Bool.eq_false_iff]
  intro h
  obtain ⟨i, hi⟩ := (hasChildren_node d e m _).mp h
  simp [TrieTreeNode.isNull] at hi

theorem insertWordLoop_cons (c : Char) (rest meaning : List Char) (d : Char) (e : Bool)
    (m : List Char) (ch : Fin 26 → TrieTreeNode) (i : Fin 26)
    (hi : slot (letterIndex (tolower c)) = some i) :
    insertWordLoop (c :: rest) meaning (.node d e m ch) =
      match insertWordLoop rest meaning
          (if (ch i).isNull then newTrieTreeNode (tolower c) else ch i) with
      | none => none
      | some child => some (.node d e m (Function.update ch i child)) := by
  simp only [insertWordLoop, hi]

theorem insertWordLoop_arg_ne_null {w meaning : List Char} {n n' : TrieTreeNode}
    (h : insertWordLoop w meaning n = some n') : n.isNull = false := by
  cases n with
  | NULL => cases w <;> simp [insertWordLoop] at h
  | node d e m ch => rfl

theorem deleteWordHelper_fresh_chain (r : List Char) :
    ∀ (pre : List Char) (c : Char) (meaning : List Char), IsLowercase r →
      ∃ n n', insertWordLoop r meaning (newTrieTreeNode c) = some n ∧
        deleteWordHelper n (pre ++ r) pre.length = some (true, n') := by
  induction r with
  | nil =>
    intro pre c meaning _
    exact ⟨.node c true meaning (fun _ => .NULL), .node c false [] (fun _ => .NULL), rfl,
      by simp [deleteWordHelper]⟩
  | cons x r ih =>
    intro pre c meaning hlow
    have hx := hlow x (List.mem_cons_self _ _)
    obtain ⟨i, hi⟩ := slot_of_lower hx
    have hi' : slot (letterIndex (tolower x)) = some i := by rw [tolower_of_lower hx]; exact hi
    obtain ⟨n1, n1', hins, hdel⟩ := ih (pre ++ [x]) x meaning
      (fun y hy => hlow y (List.mem_cons_of_mem _ hy))
    refine ⟨.node c false [] (Function.update (fun _ => .NULL) i n1), ?_, ?_, ?_⟩
    · exact .node c false [] (fun _ => .NULL)
    · unfold newTrieTreeNode
      rw [insertWordLoop_cons x r meaning c false [] _ i hi']
      simp only [TrieTreeNode.isNull, if_true, tolower_of_lower hx, hins]
    · rw [deleteWordHelper_step c false [] _ pre x r i hi]
      simp only [Function.update_same, hdel, Function.update_idem]
      have hupd : Function.update (fun _ : Fin 26 => TrieTreeNode.NULL) i TrieTreeNode.NULL
          = fun _ => TrieTreeNode.NULL := by
        funext j
        by_cases hj : j = i
        · subst hj; simp
        · simp [Function.update_noteq hj]
      rw [hupd, hasChildren_fresh]
      rfl

theorem slot_injective_of_lower {a b : Char} {i : Fin 26}
    (ha : slot (letterIndex a) = some i) (hb : slot (letterIndex b) = some i) : a = b := by
  have h1 := (slot_some_iff _ _).mp ha
  have h2 := (slot_some_iff _ _).mp hb
  unfold letterIndex at h1 h2
  exact char_eq_of_toNat_eq (by omega)

theorem deleteWordHelper_two_words (w1 : List Char) :
    ∀ (w2 pre : List Char) (d : Char) (m1 m2 : List Char),
      IsLowercase w1 → IsLowercase w2 → ¬ w1 <+: w2 → ¬ w2 <+: w1 →
      ∃ n1 n2 n', insertWordLoop w1 m1 (newTrieTreeNode d) = some n1 ∧
        insertWordLoop w2 m2 n1 = some n2 ∧
        deleteWordHelper n2 (pre ++ w1) pre.length = some (false, n') ∧
        searchWordLoop w2 n' = some m2 ∧ searchWordLoop w1 n' = some [] := by
  induction w1 with
  | nil =>
    intro w2 pre d m1 m2 _ _ h12 _
    exact absurd (List.nil_prefix) h12
  | cons a r1 ih =>
    intro w2 pre d m1 m2 hl1 hl2 h12 h21
    cases w2 with
    | nil => exact absurd (List.nil_prefix) h21
    | cons b r2 =>
      have ha := hl1 a (List.mem_cons_self _ _)
      have hb := hl2 b (List.mem_cons_self _ _)
      have hr1 : IsLowercase r1 := fun y hy => hl1 y (List.mem_cons_of_mem _ hy)
      have hr2 : IsLowercase r2 := fun y hy => hl2 y (List.mem_cons_of_mem _ hy)
      obtain ⟨i, hi⟩ := slot_of_lower ha
      obtain ⟨j, hj⟩ := slot_of_lower hb
      have hi' : slot (letterIndex (tolower a)) = some i := by
        rw [tolower_of_lower ha]; exact hi
      have hj' : slot (letterIndex (tolower b)) = some j := by
        rw [tolower_of_lower hb]; exact hj
      by_cases hab : a = b
      · subst hab
        have hij : j = i := by rw [hi] at hj; exact (Option.some.inj hj).symm
        subst hij
        have h12' : ¬ r1 <+: r2 := fun h => h12 ((List.cons_prefix_cons).mpr ⟨rfl, h⟩)
        have h21' : ¬ r2 <+: r1 := fun h => h21 ((List.cons_prefix_cons).mpr ⟨rfl, h⟩)
        obtain ⟨c1, c2, c', hins1, hins2, hdel, hs2, hs1⟩ :=
          ih r2 (pre ++ [a]) a m1 m2 hr1 hr2 h12' h21'
        have hc1 := insertWordLoop_arg_ne_null hins2
        have hc' := searchWordLoop_ne_null hs2
        refine ⟨.node d false [] (Function.update (fun _ => .NULL) j c1),
          .node d false [] (Function.update (fun _ => .NULL) j c2),
          .node d false [] (Function.update (fun _ => .NULL) j c'), ?_, ?_, ?_, ?_, ?_⟩
        · unfold newTrieTreeNode
          rw [insertWordLoop_cons a r1 m1 d false [] _ j hi']
          simp only [TrieTreeNode.isNull, if_true, tolower_of_lower ha, hins1]
        · rw [insertWordLoop_cons a r2 m2 d false [] _ j hi']
          simp only [Function.update_same, hc1, Bool.false_eq_true, if_false, hins2,
            Function.update_idem]
        · rw [deleteWordHelper_step d false [] _ pre a r1 j hi]
          simp only [Function.update_same, hdel, Function.update_idem]
        · simp [searchWordLoop, hi', hc', hs2]
        · simp [searchWordLoop, hi', hc', hs1]
      · have hij : j ≠ i := by
          intro h
          subst h
          exact hab (slot_injective_of_lower hi hj)
        obtain ⟨c1, c1', hins1, hdel1⟩ := deleteWordHelper_fresh_chain r1 (pre ++ [a]) a m1 hr1
        obtain ⟨c2, hins2, hc2, hs2⟩ :=
          insertWordLoop_searchWordLoop r2 r2 m2 (newTrieTreeNode b) rfl hr2.isAlphabetic rfl
        have hc1 := insertWordLoop_arg_ne_null hins1
        refine ⟨.node d false [] (Function.update (fun _ => .NULL) i c1),
          .node d false [] (Function.update (Function.update (fun _ => .NULL) i c1) j c2),
          .node d false []
            (Function.update (Function.update (Function.update (fun _ => .NULL) i c1) j c2)
              i .NULL), ?_, ?_, ?_, ?_, ?_⟩
        · unfold newTrieTreeNode
          rw [insertWordLoop_cons a r1 m1 d false [] _ i hi']
          simp only [TrieTreeNode.isNull, if_true, tolower_of_lower ha, hins1]
        · rw [insertWordLoop_cons b r2 m2 d false [] _ j hj']
          simp only [Function.update_noteq hij, TrieTreeNode.isNull, if_true,
            tolower_of_lower hb, hins2]
        · rw [deleteWordHelper_step d false [] _ pre a r1 i hi]
          simp only [Function.update_noteq (Ne.symm hij), Function.update_same, hdel1]
          have hch : hasChildren (.node d false []
              (Function.update (Function.update (Function.update (fun _ => .NULL) i c1) j c2)
                i .NULL)) = true := by
            rw [hasChildren_node]
            exact ⟨j, by simp [Function.update_noteq hij, hc2]⟩
          rw [hch]
          rfl
        · simp [searchWordLoop, hj', Function.update_noteq hij, hc2, hs2]
        · simp [searchWordLoop, hi', TrieTreeNode.isNull, stringOfLiteral]

/-! ## The order of strings -/

theorem stringLt_irrefl (a : List Char) : stringLt a a = false := by
  induction a with
  | nil => rfl
  | cons x xs ih => simp [stringLt, ih]

theorem stringLt_asymm : ∀ (a b : List Char), stringLt a b = true → stringLt b a = false
  | [], [] => by simp [stringLt]
  | [], _ :: _ => by simp [stringLt]
  | _ :: _, [] => by simp [stringLt]
  | x :: xs, y :: ys => by
    intro h
    unfold stringLt at h ⊢
    by_cases h1 : x.toNat < y.toNat
    · have h2 : ¬ y.toNat < x.toNat := by omega
      simp [h1, h2]
    · by_cases h2 : y.toNat < x.toNat
      · simp [h1, h2] at h
      · simp only [h1, h2, if_false] at h ⊢
        exact stringLt_asymm xs ys h

theorem stringLt_append_left (p a b : List Char) :
    stringLt (p ++ a) (p ++ b) = stringLt a b := by
  induction p with
  | nil => rfl
  | cons x xs ih => simp [stringLt, ih]

theorem stringLt_prefix_cons (p : List Char) (c : Char) (s : List Char) :
    stringLt p (p ++ c :: s) = true := by
  have h := stringLt_append_left p [] (c :: s)
  simp only [List.append_nil] at h
  rw [h]
  rfl

theorem stringLt_cons_of_lt (a b : Char) (s s' : List Char) (h : a.toNat < b.toNat) :
    stringLt (a :: s) (b :: s') = true := by
  simp [stringLt, h]

/-! ## Suggestions -/

theorem letter_toNat (i : Fin 26) : (Char.ofNat (97 + i.val)).toNat = 97 + i.val :=
  toNat_ofNat_small _ (by have := i.isLt; omega)

theorem slot_letter (i : Fin 26) : slot (letterIndex (Char.ofNat (97 + i.val))) = some i := by
  rw [slot_some_iff]
  unfold letterIndex
  rw [letter_toNat]
  omega

theorem eq_letter_of_slot {c : Char} {i : Fin 26} (h : slot (letterIndex c) = some i) :
    c = Char.ofNat (97 + i.val) := by
  apply char_eq_of_toNat_eq
  rw [letter_toNat]
  have h1 := (slot_some_iff _ _).mp h
  unfold letterIndex at h1
  omega

theorem foldl_append_flatMap {ι : Type} (g : ι → List (List Char))
    (f : List (List Char) → ι → List (List Char)) (hf : ∀ acc i, f acc i = acc ++ g i)
    (l : List ι) : ∀ acc, l.foldl f acc = acc ++ l.flatMap g := by
  induction l with
  | nil => intro acc; simp
  | cons i l ih =>
    intro acc
    rw [List.foldl_cons, ih, hf, List.flatMap_cons, List.append_assoc]

theorem findSuggestions_acc (n : TrieTreeNode) :
    ∀ (p : List Char) (acc : List (List Char)),
      findSuggestions n p acc = acc ++ findSuggestions n p [] := by
  induction n with
  | NULL => intro p acc; simp [findSuggestions]
  | node d e m ch ih =>
    intro p acc
    have hf : ∀ (a : List (List Char)) (i : Fin 26),
        (if (ch i).isNull then a
          else findSuggestions (ch i) (p ++ [Char.ofNat (97 + i.val)]) a)
        = a ++ findSuggestions (ch i) (p ++ [Char.ofNat (97 + i.val)]) [] := by
      intro a i
      split
      · rename_i hnull
        cases hci : ch i with
        | NULL => simp [findSuggestions]
        | node _ _ _ _ => rw [hci] at hnull; simp [TrieTreeNode.isNull] at hnull
      · exact ih i _ _
    rw [findSuggestions, findSuggestions, foldl_append_flatMap _ _ hf, foldl_append_flatMap _ _ hf]
    split <;> simp

theorem findSuggestions_node (d : Char) (e : Bool) (m : List Char)
    (ch : Fin 26 → TrieTreeNode) (p : List Char) :
    findSuggestions (.node d e m ch) p [] =
      (if e then [p] else []) ++ (List.finRange 26).flatMap
        (fun i => findSuggestions (ch i) (p ++ [Char.ofNat (97 + i.val)]) []) := by
  have hf : ∀ (a : List (List Char)) (i : Fin 26),
      (if (ch i).isNull then a
        else findSuggestions (ch i) (p ++ [Char.ofNat (97 + i.val)]) a)
      = a ++ findSuggestions (ch i) (p ++ [Char.ofNat (97 + i.val)]) [] := by
    intro a i
    split
    · rename_i hnull
      cases hci : ch i with
      | NULL => simp [findSuggestions]
      | node _ _ _ _ => rw [hci] at hnull; simp [TrieTreeNode.isNull] at hnull
    · exact findSuggestions_acc _ _ _
  rw [findSuggestions, foldl_append_flatMap _ _ hf]
  split <;> simp

theorem nodeAt_nil (n : TrieTreeNode) : nodeAt n [] = n := by
  cases n <;> rfl

theorem nodeAt_cons_node_none (d : Char) (e : Bool) (m : List Char)
    (ch : Fin 26 → TrieTreeNode) (c : Char) (r : List Char)
    (hc : slot (letterIndex c) = none) :
    nodeAt (.node d e m ch) (c :: r) = .NULL := by
  simp only [nodeAt, hc]

theorem mem_findSuggestions (n : TrieTreeNode) :
    ∀ (p w : List Char),
      w ∈ findSuggestions n p [] ↔ ∃ s, w = p ++ s ∧ (nodeAt n s).isTerminal = true := by
  induction n with
  | NULL =>
    intro p w
    simp [findSuggestions, nodeAt_NULL, TrieTreeNode.isTerminal]
  | node d e m ch ih =>
    intro p w
    rw [findSuggestions_node, List.mem_append, List.mem_flatMap]
    constructor
    · rintro (h | ⟨i, _, h⟩)
      · by_cases he : e = true
        · subst he
          simp only [if_true, List.mem_singleton] at h
          exact ⟨[], by simp [h], rfl⟩
        · simp [he] at h
      · obtain ⟨s, hw, hterm⟩ := (ih i _ _).mp h
        refine ⟨Char.ofNat (97 + i.val) :: s, by simp [hw], ?_⟩
        rw [nodeAt_cons_node d e m ch _ s i (slot_letter i)]
        exact hterm
    · rintro ⟨s, hw, hterm⟩
      cases s with
      | nil =>
        left
        have he : e = true := by simpa [nodeAt, TrieTreeNode.isTerminal] using hterm
        simp [he, hw]
      | cons c s =>
        right
        cases hc : slot (letterIndex c) with
        | none =>
          rw [nodeAt_cons_node_none d e m ch c s hc] at hterm
          simp [TrieTreeNode.isTerminal] at hterm
        | some i =>
          rw [nodeAt_cons_node d e m ch c s i hc] at hterm
          refine ⟨i, List.mem_finRange i, (ih i _ _).mpr ⟨s, ?_, hterm⟩⟩
          rw [hw, ← eq_letter_of_slot hc]
          simp

theorem findSuggestions_sorted (n : TrieTreeNode) :
    ∀ (p : List Char),
      (findSuggestions n p []).Sorted (fun a b => stringLt a b = true) := by
  induction n with
  | NULL =>
    intro p
    simp [findSuggestions]
  | node d e m ch ih =>
    intro p
    rw [findSuggestions_node]
    unfold List.Sorted
    rw [List.pairwise_append]
    refine ⟨?_, ?_, ?_⟩
    · split <;> simp
    · rw [List.pairwise_flatMap]
      refine ⟨fun i _ => ih i _, ?_⟩
      refine (List.pairwise_lt_finRange 26).imp ?_
      intro i j hij x hx y hy
      obtain ⟨s1, rfl, _⟩ := (mem_findSuggestions _ _ _).mp hx
      obtain ⟨s2, rfl, _⟩ := (mem_findSuggestions _ _ _).mp hy
      rw [List.append_assoc, List.append_assoc, stringLt_append_left]
      apply stringLt_cons_of_lt
      rw [letter_toNat, letter_toNat]
      have : i.val < j.val := hij
      omega
    · intro x hx y hy
      obtain ⟨i, _, hy⟩ := List.mem_flatMap.mp hy
      obtain ⟨s, rfl, _⟩ := (mem_findSuggestions _ _ _).mp hy
      have hxp : x = p := by
        by_cases he : e = true
        · simpa [he] using hx
        · simp [he] at hx
      subst hxp
      rw [List.append_assoc]
      exact stringLt_prefix_cons _ _ _

theorem sortStrings_of_sorted {l : List (List Char)}
    (h : l.Sorted (fun a b => stringLt a b = true)) : sortStrings l = l := by
  unfold sortStrings
  apply List.Sorted.insertionSort_eq
  exact List.Pairwise.imp (fun {a b} hab => stringLt_asymm a b hab) h

theorem nodeAt_append (n : TrieTreeNode) (u v : List Char) :
    nodeAt n (u ++ v) = nodeAt (nodeAt n u) v := by
  induction u generalizing n with
  | nil => rw [List.nil_append, nodeAt_nil]
  | cons c u ih =>
    cases n with
    | NULL => simp [nodeAt_NULL]
    | node d e m ch =>
      cases hc : slot (letterIndex c) with
      | none =>
        rw [List.cons_append, nodeAt_cons_node_none d e m ch c _ hc,
          nodeAt_cons_node_none d e m ch c _ hc, nodeAt_NULL]
      | some i =>
        rw [List.cons_append, nodeAt_cons_node d e m ch c _ i hc,
          nodeAt_cons_node d e m ch c _ i hc, ih]

theorem getSuggestionsLoop_lowercase (rest : List Char) :
    ∀ (pre : List Char) (n : TrieTreeNode), n.isNull = false → IsLowercase rest →
      getSuggestionsLoop rest pre n =
        some ((findSuggestions (nodeAt n rest) pre []).take 10) := by
  induction rest with
  | nil =>
    intro pre n hn _
    cases n with
    | NULL => simp [TrieTreeNode.isNull] at hn
    | node d e m ch =>
      simp only [getSuggestionsLoop, nodeAt, sortStrings_of_sorted (findSuggestions_sorted _ _)]
      congr 1
      rcases Nat.le_total (findSuggestions (.node d e m ch) pre []).length 10 with h | h
      · rw [Nat.min_eq_left h, List.take_of_length_le (le_refl _), List.take_of_length_le h]
      · rw [Nat.min_eq_right h]
  | cons c rest ih =>
    intro pre n hn hlow
    cases n with
    | NULL => simp [TrieTreeNode.isNull] at hn
    | node d e m ch =>
      have hc := hlow c (List.mem_cons_self _ _)
      obtain ⟨i, hi⟩ := slot_of_lower hc
      have hi' : slot (letterIndex (tolower c)) = some i := by rw [tolower_of_lower hc]; exact hi
      rw [nodeAt_cons_node d e m ch c rest i hi]
      simp only [getSuggestionsLoop, hi']
      by_cases hnull : (ch i).isNull = true
      · have hci : ch i = .NULL := by
          cases h : ch i with
          | NULL => rfl
          | node _ _ _ _ => rw [h] at hnull; simp [TrieTreeNode.isNull] at hnull
        rw [hci]
        simp [TrieTreeNode.isNull, nodeAt_NULL, findSuggestions]
      · simp only [hnull, if_false]
        exact ih pre (ch i) (by simpa using hnull) (fun x hx => hlow x (List.mem_cons_of_mem _ hx))

theorem suggestionReference_unique {t : TrieTree} {pre : List Char}
    {out1 out2 : List (List Char)} (h1 : IsSuggestionReference t pre out1)
    (h2 : IsSuggestionReference t pre out2) : out1 = out2 := by
  obtain ⟨l1, hs1, hm1, rfl⟩ := h1
  obtain ⟨l2, hs2, hm2, rfl⟩ := h2
  haveI : IsIrrefl (List Char) (fun a b => stringLt a b = true) :=
    ⟨fun a h => by simp [stringLt_irrefl] at h⟩
  haveI : IsAntisymm (List Char) (fun a b => stringLt a b = true) :=
    ⟨fun a b hab hba => by rw [stringLt_asymm a b hab] at hba; cases hba⟩
  have hperm : l1.Perm l2 :=
    (List.perm_ext_iff_of_nodup hs1.nodup hs2.nodup).mpr
      (fun w => (hm1 w).trans (hm2 w).symm)
  rw [List.eq_of_perm_of_sorted hperm hs1 hs2]

theorem getSuggestions_lowercase (t : TrieTree) (pre : List Char)
    (hroot : t.root.isNull = false) (hlow : IsLowercase pre) :
    getSuggestions t pre = some ((findSuggestions (nodeAt t.root pre) pre []).take 10) ∧
      (findSuggestions (nodeAt t.root pre) pre []).Sorted (fun a b => stringLt a b = true) ∧
      ∀ w, w ∈ findSuggestions (nodeAt t.root pre) pre [] ↔ (Stored t w ∧ pre <+: w) := by
  refine ⟨getSuggestionsLoop_lowercase pre pre t.root hroot hlow,
    findSuggestions_sorted _ _, ?_⟩
  intro w
  rw [mem_findSuggestions]
  constructor
  · rintro ⟨s, rfl, hterm⟩
    exact ⟨by unfold Stored; rw [nodeAt_append]; exact hterm, List.prefix_append _ _⟩
  · rintro ⟨hst, s, rfl⟩
    exact ⟨s, rfl, by unfold Stored at hst; rw [nodeAt_append] at hst; exact hst⟩

/-! ## Claims about insertion and search -/

/-- C1 (round trip): for every trie and every word and meaning made only of the letters
`A`..`Z`, `a`..`z`, the call `insertWord(word, meaning)` returns `true` and the call
`searchWord(word)` that follows returns exactly `meaning`, whatever meaning the word had
in the trie before. -/
theorem insertWord_then_searchWord (t : TrieTree) (word meaning : List Char)
    (hroot : t.root.isNull = false) (hw : IsAlphabetic word) (hm : IsAlphabetic meaning) :
    ∃ t', insertWord t word meaning = some (true, t') ∧ searchWord t' word = some meaning :=
  insertWord_searchWord_general t word meaning word hroot hw hm rfl

/-- Witness for C1: the word `Dog` with the meaning `animal`, inserted into the empty trie. -/
theorem insertWord_then_searchWord_witness :
    TrieTree.new.root.isNull = false ∧ IsAlphabetic "Dog".toList ∧
      IsAlphabetic "animal".toList ∧
      ∃ t', insertWord TrieTree.new "Dog".toList "animal".toList = some (true, t') ∧
        searchWord t' "Dog".toList = some "animal".toList :=
  ⟨by decide, by decide, by decide,
    insertWord_then_searchWord TrieTree.new "Dog".toList "animal".toList
      (by decide) (by decide) (by decide)⟩

/-- C8 (validation rejection is atomic): for every trie, `insertWord(word, meaning)`
returns, it returns `false` if and only if `word` or `meaning` contains a character that
is not a letter `A`..`Z`, `a`..`z` (empty strings are valid), and whenever it returns
`false` the trie afterwards is the trie before. -/
theorem insertWord_rejection_atomic (t : TrieTree) (word meaning : List Char)
    (hroot : t.root.isNull = false) :
    ∃ b t', insertWord t word meaning = some (b, t') ∧
      (b = false ↔ ¬ (IsAlphabetic word ∧ IsAlphabetic meaning)) ∧
      (b = false → t' = t) := by
  by_cases hv : IsAlphabetic word ∧ IsAlphabetic meaning
  · obtain ⟨t', hins, _⟩ := insertWord_searchWord_general t word meaning word hroot hv.1 hv.2 rfl
    exact ⟨true, t', hins, by simp [hv], by simp⟩
  · refine ⟨false, t, ?_, by simp [hv], fun _ => rfl⟩
    have hv' : (isValidWordOrMeaning word && isValidWordOrMeaning meaning) = false := by
      rw [Bool.eq_false_iff]
      intro h
      rw [Bool.and_eq_true] at h
      exact hv ⟨(isValidWordOrMeaning_iff word).mp h.1, (isValidWordOrMeaning_iff meaning).mp h.2⟩
    simp [insertWord, hv']

/-- Witness for C8: the word `abc1` is rejected on the empty trie, which stays as it was. -/
theorem insertWord_rejection_atomic_witness :
    TrieTree.new.root.isNull = false ∧
      ∃ b t', insertWord TrieTree.new "abc1".toList "meaning".toList = some (b, t') ∧
        (b = false ↔ ¬ (IsAlphabetic "abc1".toList ∧ IsAlphabetic "meaning".toList)) ∧
        (b = false → t' = TrieTree.new) :=
  ⟨by decide, insertWord_rejection_atomic TrieTree.new "abc1".toList "meaning".toList (by decide)⟩

/-- C10 (case folding on insert and search): for every trie, every alphabetic word `w`,
every alphabetic meaning `m` and every word `w'` equal to `w` up to letter case, after
`insertWord(w, m)` the call `searchWord(w')` returns `m`. -/
theorem insertWord_then_searchWord_caseFolded (t : TrieTree) (w m w' : List Char)
    (hroot : t.root.isNull = false) (hw : IsAlphabetic w) (hm : IsAlphabetic m)
    (hcase : SameUpToCase w w') :
    ∃ t', insertWord t w m = some (true, t') ∧ searchWord t' w' = some m :=
  insertWord_searchWord_general t w m w' hroot hw hm hcase

/-- Witness for C10: `Dog` is inserted into the empty trie and `DOG` is searched. -/
theorem insertWord_then_searchWord_caseFolded_witness :
    TrieTree.new.root.isNull = false ∧ IsAlphabetic "Dog".toList ∧
      IsAlphabetic "animal".toList ∧ SameUpToCase "Dog".toList "DOG".toList ∧
      ∃ t', insertWord TrieTree.new "Dog".toList "animal".toList = some (true, t') ∧
        searchWord t' "DOG".toList = some "animal".toList :=
  ⟨by decide, by decide, by decide, by decide,
    insertWord_then_searchWord_caseFolded TrieTree.new "Dog".toList "animal".toList
      "DOG".toList (by decide) (by decide) (by decide) (by decide)⟩

/-! ## Claims about deletion -/

/-- C4 (deletion completeness): for every trie and every lowercase word `w` stored in it,
`deleteWord(w)` followed by `searchWord(w)` returns the not-found value, the empty string,
whether or not other stored words share a prefix with `w`. -/
theorem deleteWord_then_searchWord_notFound (t : TrieTree) (w : List Char)
    (hlow : IsLowercase w) (hst : Stored t w) :
    ∃ t', deleteWord t w = some t' ∧ searchWord t' w = some [] := by
  obtain ⟨b, n', hdel, _, hsearch⟩ := deleteWordHelper_stored w [] t.root hlow hst
  simp only [List.nil_append, List.length_nil] at hdel
  refine ⟨⟨n'⟩, ?_, ?_⟩
  · simp [deleteWord, (isValidWordOrMeaning_iff w).mpr hlow.isAlphabetic, hdel]
  · simp [searchWord, (isValidWordOrMeaning_iff w).mpr hlow.isAlphabetic, hsearch]

/-- Witness for C4: `cat` is deleted from the trie holding `cat` and `car`. -/
theorem deleteWord_then_searchWord_notFound_witness :
    IsLowercase "cat".toList ∧
      Stored (trieOf [("cat", "feline"), ("car", "vehicle")]) "cat".toList ∧
      ∃ t', deleteWord (trieOf [("cat", "feline"), ("car", "vehicle")]) "cat".toList = some t' ∧
        searchWord t' "cat".toList = some [] :=
  ⟨by decide, by decide,
    deleteWord_then_searchWord_notFound (trieOf [("cat", "feline"), ("car", "vehicle")])
      "cat".toList (by decide) (by decide)⟩

/-- C5 (shared-prefix survival): starting from the empty trie, for every two lowercase
words `w1`, `w2` of which neither is a prefix of the other and every two alphabetic
meanings `m1`, `m2` (empty or not), the calls `insertWord(w1, m1)`, `insertWord(w2, m2)`
return `true`, and after `deleteWord(w1)` the call `searchWord(w2)` returns `m2` and
`searchWord(w1)` returns the not-found value. -/
theorem shared_prefix_survival (w1 w2 m1 m2 : List Char)
    (hl1 : IsLowercase w1) (hl2 : IsLowercase w2)
    (hm1 : IsAlphabetic m1) (hm2 : IsAlphabetic m2)
    (h12 : ¬ w1 <+: w2) (h21 : ¬ w2 <+: w1) :
    ∃ t1 t2 t3, insertWord TrieTree.new w1 m1 = some (true, t1) ∧
      insertWord t1 w2 m2 = some (true, t2) ∧ deleteWord t2 w1 = some t3 ∧
      searchWord t3 w2 = some m2 ∧ searchWord t3 w1 = some [] := by
  obtain ⟨n1, n2, n', hins1, hins2, hdel, hs2, hs1⟩ :=
    deleteWordHelper_two_words w1 w2 [] (Char.ofNat 0) m1 m2 hl1 hl2 h12 h21
  simp only [List.nil_append, List.length_nil] at hdel
  have hv1 := (isValidWordOrMeaning_iff w1).mpr hl1.isAlphabetic
  have hv2 := (isValidWordOrMeaning_iff w2).mpr hl2.isAlphabetic
  refine ⟨⟨n1⟩, ⟨n2⟩, ⟨n'⟩, ?_, ?_, ?_, ?_, ?_⟩
  · simp [insertWord, hv1, (isValidWordOrMeaning_iff m1).mpr hm1, TrieTree.new, hins1]
  · simp [insertWord, hv2, (isValidWordOrMeaning_iff m2).mpr hm2, hins2]
  · simp [deleteWord, hv1, hdel]
  · simp [searchWord, hv2, hs2]
  · simp [searchWord, hv1, hs1]

/-- Witness for C5: the words `cat` and `car`. -/
theorem shared_prefix_survival_witness :
    IsLowercase "cat".toList ∧ IsLowercase "car".toList ∧
      IsAlphabetic "feline".toList ∧ IsAlphabetic "vehicle".toList ∧
      ¬ "cat".toList <+: "car".toList ∧ ¬ "car".toList <+: "cat".toList ∧
      ∃ t1 t2 t3, insertWord TrieTree.new "cat".toList "feline".toList = some (true, t1) ∧
        insertWord t1 "car".toList "vehicle".toList = some (true, t2) ∧
        deleteWord t2 "cat".toList = some t3 ∧
        searchWord t3 "car".toList = some "vehicle".toList ∧
        searchWord t3 "cat".toList = some [] :=
  ⟨by decide, by decide, by decide, by decide, by decide, by decide,
    shared_prefix_survival "cat".toList "car".toList "feline".toList "vehicle".toList
      (by decide) (by decide) (by decide) (by decide) (by decide) (by decide)⟩

/-- C2 (evaluation at the failing input): in the trie holding `car` and `cart`, both
words are stored and `searchWord(cart)` returns `wagon`; after `deleteWord(car)` the node
for `car` no longer exists and `searchWord(cart)` returns the empty string. -/
theorem deleteWord_prefix_word_loses_longer_word :
    Stored (trieOf [("car", "vehicle"), ("cart", "wagon")]) "car".toList ∧
      Stored (trieOf [("car", "vehicle"), ("cart", "wagon")]) "cart".toList ∧
      searchWord (trieOf [("car", "vehicle"), ("cart", "wagon")]) "cart".toList
        = some "wagon".toList ∧
      ((deleteWord (trieOf [("car", "vehicle"), ("cart", "wagon")]) "car".toList).bind
        fun t' => searchWord t' "cart".toList) = some [] ∧
      ((deleteWord (trieOf [("car", "vehicle"), ("cart", "wagon")]) "car".toList).map
        fun t' => (nodeAt t'.root "car".toList).isNull) = some true := by
  decide

/-- C3 (evaluation at the failing input): in the trie holding `car` and `cart`,
`searchWord(car)` returns `vehicle`; after `deleteWord(cart)` the node for `car`, which is
terminal, has been unlinked by its parent and `searchWord(car)` returns the empty string. -/
theorem deleteWord_longer_word_loses_prefix_word :
    Stored (trieOf [("car", "vehicle"), ("cart", "wagon")]) "car".toList ∧
      Stored (trieOf [("car", "vehicle"), ("cart", "wagon")]) "cart".toList ∧
      searchWord (trieOf [("car", "vehicle"), ("cart", "wagon")]) "car".toList
        = some "vehicle".toList ∧
      ((deleteWord (trieOf [("car", "vehicle"), ("cart", "wagon")]) "cart".toList).bind
        fun t' => searchWord t' "car".toList) = some [] ∧
      ((deleteWord (trieOf [("car", "vehicle"), ("cart", "wagon")]) "cart".toList).map
        fun t' => (nodeAt t'.root "car".toList).isNull) = some true := by
  decide

/-! ## Claims about suggestions -/

/-- C6 (suggestion reference definition): for every trie and every prefix of lowercase
letters, the empty prefix included, `getSuggestions(prefix)` returns the first 10 entries
of the ascending lexicographically sorted list of all stored words that begin with
`prefix`; when the path of `prefix` does not exist the result is the empty list. -/
theorem getSuggestions_eq_reference (t : TrieTree) (pre : List Char)
    (hroot : t.root.isNull = false) (hlow : IsLowercase pre) :
    ∃ out, getSuggestions t pre = some out ∧ IsSuggestionReference t pre out ∧
      ((nodeAt t.root pre).isNull = true → out = []) := by
  obtain ⟨hget, hsorted, hmem⟩ := getSuggestions_lowercase t pre hroot hlow
  refine ⟨_, hget, ⟨_, hsorted, hmem, rfl⟩, ?_⟩
  intro hnull
  cases h : nodeAt t.root pre with
  | NULL => simp [findSuggestions]
  | node _ _ _ _ => rw [h] at hnull; simp [TrieTreeNode.isNull] at hnull

/-- Witness for C6: the prefix `te` in a trie holding `ten`, `tea`, `cat` and `team`. -/
theorem getSuggestions_eq_reference_witness :
    (trieOf [("ten", "x"), ("tea", "y"), ("cat", "z"), ("team", "w")]).root.isNull = false ∧
      IsLowercase "te".toList ∧
      ∃ out, getSuggestions (trieOf [("ten", "x"), ("tea", "y"), ("cat", "z"), ("team", "w")])
          "te".toList = some out ∧
        IsSuggestionReference (trieOf [("ten", "x"), ("tea", "y"), ("cat", "z"), ("team", "w")])
          "te".toList out ∧
        ((nodeAt (trieOf [("ten", "x"), ("tea", "y"), ("cat", "z"), ("team", "w")]).root
          "te".toList).isNull = true → out = []) :=
  ⟨by decide, by decide,
    getSuggestions_eq_reference (trieOf [("ten", "x"), ("tea", "y"), ("cat", "z"), ("team", "w")])
      "te".toList (by decide) (by decide)⟩

/-- C7 (evaluation at the failing input): in the trie holding `tea` and `team`, the
call `getSuggestions(TE)` returns the entries `TEa` and `TEam`, neither of which is a
stored word of the trie; the stored words beginning with the case-folded prefix are `tea`
and `team`. -/
theorem getSuggestions_uppercase_prefix_not_stored :
    IsAlphabetic "TE".toList ∧
      getSuggestions (trieOf [("tea", "drink"), ("team", "group")]) "TE".toList
        = some ["TEa".toList, "TEam".toList] ∧
      ¬ Stored (trieOf [("tea", "drink"), ("team", "group")]) "TEa".toList ∧
      ¬ Stored (trieOf [("tea", "drink"), ("team", "group")]) "TEam".toList ∧
      getSuggestions (trieOf [("tea", "drink"), ("team", "group")]) "te".toList
        = some ["tea".toList, "team".toList] := by
  decide

/-- C9 (evaluation at the failing input): in the trie holding `car`, `searchWord` returns
the same value, the empty string, for the invalid word `c4r` and for the valid word `cat`
that is not stored; the literal returned for an invalid word converts to the empty
string. -/
theorem searchWord_invalid_eq_notFound :
    ¬ IsAlphabetic "c4r".toList ∧ IsAlphabetic "cat".toList ∧
      ¬ Stored (trieOf [("car", "vehicle")]) "cat".toList ∧
      searchWord (trieOf [("car", "vehicle")]) "c4r".toList = some [] ∧
      searchWord (trieOf [("car", "vehicle")]) "cat".toList = some [] ∧
      stringOfLiteral [Char.ofNat 0] = stringOfLiteral [] := by
  decide

/-! ## Deleting a word that is not stored -/

theorem isTerminal_eq_false_of_not {n : TrieTreeNode} (h : ¬ n.isTerminal = true) :
    n.isTerminal = false := by
  simpa using h

theorem deleteWordHelper_not_stored (rest : List Char) :
    ∀ (pre : List Char) (n : TrieTreeNode), IsLowercase rest →
      (nodeAt n rest).isTerminal = false →
      deleteWordHelper n (pre ++ rest) pre.length = some (false, n) := by
  induction rest with
  | nil =>
    intro pre n _ hterm
    cases n with
    | NULL => rfl
    | node d e m ch =>
      have he : e = false := by simpa [nodeAt, TrieTreeNode.isTerminal] using hterm
      subst he
      simp [deleteWordHelper]
  | cons c r ih =>
    intro pre n hlow hterm
    cases n with
    | NULL => rfl
    | node d e m ch =>
      have hc := hlow c (List.mem_cons_self _ _)
      obtain ⟨i, hi⟩ := slot_of_lower hc
      rw [nodeAt_cons_node d e m ch c r i hi] at hterm
      rw [deleteWordHelper_step d e m ch pre c r i hi,
        ih (pre ++ [c]) (ch i) (fun x hx => hlow x (List.mem_cons_of_mem _ hx)) hterm]
      simp only [Function.update_eq_self]

theorem deleteWord_not_stored (t : TrieTree) (w : List Char) (hlow : IsLowercase w)
    (hns : ¬ Stored t w) : deleteWord t w = some t := by
  have h := deleteWordHelper_not_stored w [] t.root hlow (isTerminal_eq_false_of_not hns)
  simp only [List.nil_append, List.length_nil] at h
  simp [deleteWord, (isValidWordOrMeaning_iff w).mpr hlow.isAlphabetic, h]

/-! ## Suggestions for a prefix in either case -/

theorem getSuggestionsLoop_alphabetic (rest : List Char) :
    ∀ (pre : List Char) (n : TrieTreeNode), n.isNull = false → IsAlphabetic rest →
      getSuggestionsLoop rest pre n =
        some ((findSuggestions (nodeAt n (rest.map tolower)) pre []).take 10) := by
  induction rest with
  | nil =>
    intro pre n hn _
    exact getSuggestionsLoop_lowercase [] pre n hn (fun _ hx => absurd hx (List.not_mem_nil _))
  | cons c rest ih =>
    intro pre n hn halpha
    cases n with
    | NULL => simp [TrieTreeNode.isNull] at hn
    | node d e m ch =>
      obtain ⟨i, hi⟩ := slot_of_alpha (halpha c (List.mem_cons_self _ _))
      rw [List.map_cons, nodeAt_cons_node d e m ch (tolower c) _ i hi]
      simp only [getSuggestionsLoop, hi]
      by_cases hnull : (ch i).isNull = true
      · have hci : ch i = .NULL := by
          cases h : ch i with
          | NULL => rfl
          | node _ _ _ _ => rw [h] at hnull; simp [TrieTreeNode.isNull] at hnull
        rw [hci]
        simp [TrieTreeNode.isNull, nodeAt_NULL, findSuggestions]
      · simp only [hnull, if_false]
        exact ih pre (ch i) (by simpa using hnull)
          (fun x hx => halpha x (List.mem_cons_of_mem _ hx))

/-! ## Claims about deletion, continued -/

/-- C11 (evaluation at the failing input): in the trie holding the word inserted as
`Dog`, the lowercased word `dog` is stored and `searchWord(Dog)` returns `animal`, but
`deleteWord(Dog)` computes the child index `'D' - 'a' = -29`, outside `0..25`, so the call
has no defined result; `deleteWord(dog)` is defined. -/
theorem deleteWord_uppercase_index_out_of_bounds :
    IsAlphabetic "Dog".toList ∧ SameUpToCase "Dog".toList "DOG".toList ∧
      Stored (trieOf [("Dog", "animal")]) "dog".toList ∧
      searchWord (trieOf [("Dog", "animal")]) "Dog".toList = some "animal".toList ∧
      letterIndex (Char.ofNat 68) = -29 ∧ slot (letterIndex (Char.ofNat 68)) = none ∧
      (deleteWord (trieOf [("Dog", "animal")]) "Dog".toList).isNone = true ∧
      (deleteWord (trieOf [("Dog", "animal")]) "DOG".toList).isNone = true ∧
      (deleteWord (trieOf [("Dog", "animal")]) "dog".toList).isSome = true := by
  decide

/-- C15 (deleting an absent word is a no-op): for every trie and every lowercase word `w`
that is not stored (its path breaks, or its final node is not terminal), `deleteWord(w)`
returns and the trie afterwards is exactly the trie before. -/
theorem deleteWord_absent_noop (t : TrieTree) (w : List Char) (hlow : IsLowercase w)
    (hns : ¬ Stored t w) : deleteWord t w = some t :=
  deleteWord_not_stored t w hlow hns

/-- Witness for C15: `ca` (path exists, node not terminal) in the trie holding `cat`. -/
theorem deleteWord_absent_noop_witness :
    IsLowercase "ca".toList ∧ ¬ Stored (trieOf [("cat", "feline")]) "ca".toList ∧
      (nodeAt (trieOf [("cat", "feline")]).root "ca".toList).isNull = false ∧
      deleteWord (trieOf [("cat", "feline")]) "ca".toList = some (trieOf [("cat", "feline")]) :=
  ⟨by decide, by decide, by decide,
    deleteWord_absent_noop (trieOf [("cat", "feline")]) "ca".toList (by decide) (by decide)⟩

/-! ## Claims about suggestions, continued -/

/-- C19 (the sort in `getSuggestions` is a no-op): for every trie and every alphabetic
prefix whose case-folded path exists, the list `findSuggestions` collects from the node of
the prefix (node before its children, children in the order `a`..`z`) is strictly
ascending, hence free of duplicates and left unchanged by the sort, and
`getSuggestions(prefix)` is the first 10 entries of that list.  (When the path does not
exist nothing is collected and the result is empty, so the proof does not use the
hypothesis on the path.) -/
theorem getSuggestions_sort_noop (t : TrieTree) (pre : List Char)
    (hroot : t.root.isNull = false) (halpha : IsAlphabetic pre)
    (_hpath : (nodeAt t.root (pre.map tolower)).isNull = false) :
    (findSuggestions (nodeAt t.root (pre.map tolower)) pre []).Sorted
        (fun a b => stringLt a b = true) ∧
      (findSuggestions (nodeAt t.root (pre.map tolower)) pre []).Nodup ∧
      sortStrings (findSuggestions (nodeAt t.root (pre.map tolower)) pre [])
        = findSuggestions (nodeAt t.root (pre.map tolower)) pre [] ∧
      getSuggestions t pre
        = some ((findSuggestions (nodeAt t.root (pre.map tolower)) pre []).take 10) := by
  have hs := findSuggestions_sorted (nodeAt t.root (pre.map tolower)) pre
  haveI : IsIrrefl (List Char) (fun a b => stringLt a b = true) :=
    ⟨fun a h => by simp [stringLt_irrefl] at h⟩
  exact ⟨hs, hs.nodup, sortStrings_of_sorted hs,
    getSuggestionsLoop_alphabetic pre pre t.root hroot halpha⟩

/-- Witness for C19: the prefix `Te` in a trie holding `ten`, `tea`, `cat` and `team`. -/
theorem getSuggestions_sort_noop_witness :
    (trieOf [("ten", "x"), ("tea", "y"), ("cat", "z"), ("team", "w")]).root.isNull = false ∧
      IsAlphabetic "Te".toList ∧
      findSuggestions
          (nodeAt (trieOf [("ten", "x"), ("tea", "y"), ("cat", "z"), ("team", "w")]).root
            ("Te".toList.map tolower)) "Te".toList []
        = ["Tea".toList, "Team".toList, "Ten".toList] ∧
      getSuggestions (trieOf [("ten", "x"), ("tea", "y"), ("cat", "z"), ("team", "w")])
          "Te".toList
        = some ((findSuggestions
          (nodeAt (trieOf [("ten", "x"), ("tea", "y"), ("cat", "z"), ("team", "w")]).root
            ("Te".toList.map tolower)) "Te".toList []).take 10) :=
  ⟨by decide, by decide, by decide,
    (getSuggestions_sort_noop
      (trieOf [("ten", "x"), ("tea", "y"), ("cat", "z"), ("team", "w")]) "Te".toList
      (by decide) (by decide) (by decide)).2.2.2⟩

/-! ## Insertion leaves the other words alone -/

theorem searchWordLoop_fresh (w : List Char) (c : Char) (hw : IsAlphabetic w) :
    searchWordLoop w (newTrieTreeNode c) = some [] := by
  cases w with
  | nil => rfl
  | cons x r =>
    obtain ⟨i, hi⟩ := slot_of_alpha (hw x (List.mem_cons_self _ _))
    simp [searchWordLoop, newTrieTreeNode, hi, TrieTreeNode.isNull, stringOfLiteral]

theorem insertWordLoop_ne_null {w meaning : List Char} {n n' : TrieTreeNode}
    (h : insertWordLoop w meaning n = some n') : n'.isNull = false := by
  cases n with
  | NULL => cases w <;> simp [insertWordLoop] at h
  | node d e m ch =>
    cases w with
    | nil =>
      simp only [insertWordLoop, Option.some.injEq] at h
      subst h
      rfl
    | cons c r =>
      simp only [insertWordLoop] at h
      split at h
      · cases h
      · split at h
        · cases h
        · simp only [Option.some.injEq] at h
          subst h
          rfl

theorem slot_tolower_injective {a b : Char} {i : Fin 26}
    (ha : slot (letterIndex (tolower a)) = some i)
    (hb : slot (letterIndex (tolower b)) = some i) : tolower a = tolower b :=
  slot_injective_of_lower ha hb

theorem insertWordLoop_searchWordLoop_other (w : List Char) :
    ∀ (w' meaning : List Char) (n n' : TrieTreeNode), IsAlphabetic w' →
      w'.map tolower ≠ w.map tolower → insertWordLoop w meaning n = some n' →
      searchWordLoop w' n' = searchWordLoop w' n := by
  induction w with
  | nil =>
    intro w' meaning n n' _ hne hins
    cases n with
    | NULL => simp [insertWordLoop] at hins
    | node d e m ch =>
      simp only [insertWordLoop, Option.some.injEq] at hins
      subst hins
      cases w' with
      | nil => simp at hne
      | cons c' r' => simp only [searchWordLoop]
  | cons c r ih =>
    intro w' meaning n n' hw' hne hins
    cases n with
    | NULL => simp [insertWordLoop] at hins
    | node d e m ch =>
      simp only [insertWordLoop] at hins
      split at hins
      · cases hins
      · rename_i i hi
        split at hins
        · cases hins
        · rename_i child hchild
          simp only [Option.some.injEq] at hins
          subst hins
          cases w' with
          | nil => simp only [searchWordLoop]
          | cons c' r' =>
            obtain ⟨j, hj⟩ := slot_of_alpha (hw' c' (List.mem_cons_self _ _))
            have hr' : IsAlphabetic r' := fun x hx => hw' x (List.mem_cons_of_mem _ hx)
            simp only [searchWordLoop, hj]
            by_cases hji : j = i
            · subst hji
              have hcc : tolower c' = tolower c := slot_tolower_injective hj hi
              have hne' : r'.map tolower ≠ r.map tolower := by
                intro h
                apply hne
                simp [hcc, h]
              have hsame := ih r' meaning _ child hr' hne' hchild
              simp only [Function.update_same, insertWordLoop_ne_null hchild,
                Bool.false_eq_true, if_false, hsame]
              by_cases hnull : (ch j).isNull = true
              · simp only [hnull, if_true]
                rw [searchWordLoop_fresh r' _ hr']
                rfl
              · simp only [hnull, if_false]
                simp
            · simp only [Function.update_noteq hji]

theorem nodeAt_fresh_isTerminal (c : Char) (v : List Char) :
    (nodeAt (newTrieTreeNode c) v).isTerminal = false := by
  cases v with
  | nil => rfl
  | cons x r =>
    cases hx : slot (letterIndex x) with
    | none => rw [newTrieTreeNode, nodeAt_cons_node_none _ _ _ _ _ _ hx]; rfl
    | some i => rw [newTrieTreeNode, nodeAt_cons_node _ _ _ _ _ _ i hx, nodeAt_NULL]; rfl

theorem insertWordLoop_isTerminal_other (w : List Char) :
    ∀ (v meaning : List Char) (n n' : TrieTreeNode),
      v ≠ w.map tolower → insertWordLoop w meaning n = some n' →
      (nodeAt n' v).isTerminal = (nodeAt n v).isTerminal := by
  induction w with
  | nil =>
    intro v meaning n n' hne hins
    cases n with
    | NULL => simp [insertWordLoop] at hins
    | node d e m ch =>
      simp only [insertWordLoop, Option.some.injEq] at hins
      subst hins
      cases v with
      | nil => simp at hne
      | cons x r => simp only [nodeAt]
  | cons c r ih =>
    intro v meaning n n' hne hins
    cases n with
    | NULL => simp [insertWordLoop] at hins
    | node d e m ch =>
      simp only [insertWordLoop] at hins
      split at hins
      · cases hins
      · rename_i i hi
        split at hins
        · cases hins
        · rename_i child hchild
          simp only [Option.some.injEq] at hins
          subst hins
          cases v with
          | nil => rfl
          | cons x v' =>
            cases hx : slot (letterIndex x) with
            | none =>
              rw [nodeAt_cons_node_none _ _ _ _ _ _ hx, nodeAt_cons_node_none _ _ _ _ _ _ hx]
            | some j =>
              rw [nodeAt_cons_node _ _ _ _ _ _ j hx, nodeAt_cons_node _ _ _ _ _ _ j hx]
              by_cases hji : j = i
              · subst hji
                have hxc : x = tolower c := slot_injective_of_lower hx hi
                have hne' : v' ≠ r.map tolower := by
                  intro h
                  apply hne
                  simp [hxc, h]
                rw [Function.update_same, ih v' meaning _ child hne' hchild]
                by_cases hnull : (ch j).isNull = true
                · have hcj : ch j = .NULL := by
                    cases h : ch j with
                    | NULL => rfl
                    | node _ _ _ _ => rw [h] at hnull; simp [TrieTreeNode.isNull] at hnull
                  simp only [hnull, if_true]
                  rw [nodeAt_fresh_isTerminal, hcj, nodeAt_NULL]
                  rfl
                · simp only [hnull, if_false]
                  simp
              · rw [Function.update_noteq hji]

theorem insertWordLoop_isTerminal_self (w : List Char) :
    ∀ (meaning : List Char) (n n' : TrieTreeNode),
      insertWordLoop w meaning n = some n' →
      (nodeAt n' (w.map tolower)).isTerminal = true ∧
        (nodeAt n' (w.map tolower)).meaningOf = meaning := by
  induction w with
  | nil =>
    intro meaning n n' hins
    cases n with
    | NULL => simp [insertWordLoop] at hins
    | node d e m ch =>
      simp only [insertWordLoop, Option.some.injEq] at hins
      subst hins
      exact ⟨rfl, rfl⟩
  | cons c r ih =>
    intro meaning n n' hins
    cases n with
    | NULL => simp [insertWordLoop] at hins
    | node d e m ch =>
      simp only [insertWordLoop] at hins
      split at hins
      · cases hins
      · rename_i i hi
        split at hins
        · cases hins
        · rename_i child hchild
          simp only [Option.some.injEq] at hins
          subst hins
          rw [List.map_cons, nodeAt_cons_node _ _ _ _ _ _ i hi, Function.update_same]
          exact ih meaning _ child hchild

theorem searchWordLoop_eq_meaningOf (w : List Char) :
    ∀ (n : TrieTreeNode), n.isNull = false → IsAlphabetic w →
      searchWordLoop w n = some (nodeAt n (w.map tolower)).meaningOf := by
  induction w with
  | nil =>
    intro n hn _
    cases n with
    | NULL => simp [TrieTreeNode.isNull] at hn
    | node d e m ch => rfl
  | cons c r ih =>
    intro n hn hw
    cases n with
    | NULL => simp [TrieTreeNode.isNull] at hn
    | node d e m ch =>
      obtain ⟨i, hi⟩ := slot_of_alpha (hw c (List.mem_cons_self _ _))
      rw [List.map_cons, nodeAt_cons_node _ _ _ _ _ _ i hi]
      simp only [searchWordLoop, hi]
      by_cases hnull : (ch i).isNull = true
      · have hci : ch i = .NULL := by
          cases h : ch i with
          | NULL => rfl
          | node _ _ _ _ => rw [h] at hnull; simp [TrieTreeNode.isNull] at hnull
        simp only [hnull, if_true, hci, nodeAt_NULL]
        rfl
      · simp only [hnull, if_false]
        exact ih (ch i) (by simpa using hnull) (fun x hx => hw x (List.mem_cons_of_mem _ hx))

/-! ## Update -/

theorem updateWordLoop_returns (w : List Char) :
    ∀ (newMeaning : List Char) (n : TrieTreeNode), n.isNull = false → IsAlphabetic w →
      ∃ b n', updateWordLoop w newMeaning n = some (b, n') ∧
        (b = true ↔ (nodeAt n (w.map tolower)).isTerminal = true) ∧
        (b = false → n' = n) := by
  induction w with
  | nil =>
    intro newMeaning n hn _
    cases n with
    | NULL => simp [TrieTreeNode.isNull] at hn
    | node d e m ch =>
      cases e with
      | true => exact ⟨true, _, rfl, by simp [nodeAt, TrieTreeNode.isTerminal], by simp⟩
      | false => exact ⟨false, _, rfl, by simp [nodeAt, TrieTreeNode.isTerminal], fun _ => rfl⟩
  | cons c r ih =>
    intro newMeaning n hn hw
    cases n with
    | NULL => simp [TrieTreeNode.isNull] at hn
    | node d e m ch =>
      obtain ⟨i, hi⟩ := slot_of_alpha (hw c (List.mem_cons_self _ _))
      rw [List.map_cons, nodeAt_cons_node _ _ _ _ _ _ i hi]
      simp only [updateWordLoop, hi]
      by_cases hnull : (ch i).isNull = true
      · have hci : ch i = .NULL := by
          cases h : ch i with
          | NULL => rfl
          | node _ _ _ _ => rw [h] at hnull; simp [TrieTreeNode.isNull] at hnull
        refine ⟨false, _, by simp only [hnull, if_true], ?_, fun _ => rfl⟩
        simp [hci, nodeAt_NULL, TrieTreeNode.isTerminal]
      · obtain ⟨b, c', hupd, hb, hsame⟩ := ih newMeaning (ch i) (by simpa using hnull)
          (fun x hx => hw x (List.mem_cons_of_mem _ hx))
        refine ⟨b, .node d e m (Function.update ch i c'), by simp [hnull, hupd], hb, ?_⟩
        intro hbf
        rw [hsame hbf, Function.update_eq_self]

theorem updateWordLoop_observe (w : List Char) :
    ∀ (newMeaning : List Char) (n n' : TrieTreeNode) (b : Bool),
      updateWordLoop w newMeaning n = some (b, n') →
      ∀ v, (nodeAt n' v).isNull = (nodeAt n v).isNull ∧
        (nodeAt n' v).isTerminal = (nodeAt n v).isTerminal ∧
        (v ≠ w.map tolower → (nodeAt n' v).meaningOf = (nodeAt n v).meaningOf) := by
  induction w with
  | nil =>
    intro newMeaning n n' b hupd v
    cases n with
    | NULL => simp [updateWordLoop] at hupd
    | node d e m ch =>
      simp only [updateWordLoop] at hupd
      split at hupd
      · simp only [Option.some.injEq, Prod.mk.injEq] at hupd
        obtain ⟨_, rfl⟩ := hupd
        cases v with
        | nil => exact ⟨rfl, rfl, fun h => absurd rfl h⟩
        | cons x v' => simp [nodeAt]
      · simp only [Option.some.injEq, Prod.mk.injEq] at hupd
        obtain ⟨_, rfl⟩ := hupd
        exact ⟨rfl, rfl, fun _ => rfl⟩
  | cons c r ih =>
    intro newMeaning n n' b hupd v
    cases n with
    | NULL => simp [updateWordLoop] at hupd
    | node d e m ch =>
      simp only [updateWordLoop] at hupd
      split at hupd
      · cases hupd
      · rename_i i hi
        split at hupd
        · simp only [Option.some.injEq, Prod.mk.injEq] at hupd
          obtain ⟨_, rfl⟩ := hupd
          exact ⟨rfl, rfl, fun _ => rfl⟩
        · split at hupd
          · cases hupd
          · rename_i b' child hchild
            simp only [Option.some.injEq, Prod.mk.injEq] at hupd
            obtain ⟨_, rfl⟩ := hupd
            cases v with
            | nil => exact ⟨rfl, rfl, fun _ => rfl⟩
            | cons x v' =>
              cases hx : slot (letterIndex x) with
              | none =>
                rw [nodeAt_cons_node_none _ _ _ _ _ _ hx, nodeAt_cons_node_none _ _ _ _ _ _ hx]
                exact ⟨rfl, rfl, fun _ => rfl⟩
              | some j =>
                rw [nodeAt_cons_node _ _ _ _ _ _ j hx, nodeAt_cons_node _ _ _ _ _ _ j hx]
                by_cases hji : j = i
                · subst hji
                  have hxc : x = tolower c := slot_injective_of_lower hx hi
                  rw [Function.update_same]
                  obtain ⟨h1, h2, h3⟩ := ih newMeaning (ch j) child b' hchild v'
                  refine ⟨h1, h2, fun hne => h3 ?_⟩
                  intro h
                  apply hne
                  simp [hxc, h]
                · rw [Function.update_noteq hji]
                  exact ⟨rfl, rfl, fun _ => rfl⟩

theorem updateWordLoop_meaning (w : List Char) :
    ∀ (newMeaning : List Char) (n n' : TrieTreeNode),
      updateWordLoop w newMeaning n = some (true, n') →
      (nodeAt n' (w.map tolower)).meaningOf = newMeaning := by
  induction w with
  | nil =>
    intro newMeaning n n' hupd
    cases n with
    | NULL => simp [updateWordLoop] at hupd
    | node d e m ch =>
      simp only [updateWordLoop] at hupd
      split at hupd
      · simp only [Option.some.injEq, Prod.mk.injEq] at hupd
        obtain ⟨_, rfl⟩ := hupd
        rfl
      · simp at hupd
  | cons c r ih =>
    intro newMeaning n n' hupd
    cases n with
    | NULL => simp [updateWordLoop] at hupd
    | node d e m ch =>
      simp only [updateWordLoop] at hupd
      split at hupd
      · cases hupd
      · rename_i i hi
        split at hupd
        · simp at hupd
        · split at hupd
          · cases hupd
          · rename_i b' child hchild
            simp only [Option.some.injEq, Prod.mk.injEq] at hupd
            obtain ⟨rfl, rfl⟩ := hupd
            rw [List.map_cons, nodeAt_cons_node _ _ _ _ _ _ i hi, Function.update_same]
            exact ih newMeaning (ch i) child hchild

theorem updateWord_of_loop {t : TrieTree} {word newMeaning : List Char} {b : Bool}
    {n' : TrieTreeNode} (hw : IsAlphabetic word) (hm : IsAlphabetic newMeaning)
    (h : updateWordLoop word newMeaning t.root = some (b, n')) :
    updateWord t word newMeaning = some (b, ⟨n'⟩) := by
  simp [updateWord, (isValidWordOrMeaning_iff word).mpr hw,
    (isValidWordOrMeaning_iff newMeaning).mpr hm, h]

theorem updateWord_invalid {t : TrieTree} {word newMeaning : List Char}
    (h : ¬ (IsAlphabetic word ∧ IsAlphabetic newMeaning)) :
    updateWord t word newMeaning = some (false, t) := by
  have hv : (isValidWordOrMeaning word && isValidWordOrMeaning newMeaning) = false := by
    rw [Bool.eq_false_iff]
    intro hb
    rw [Bool.and_eq_true] at hb
    exact h ⟨(isValidWordOrMeaning_iff word).mp hb.1,
      (isValidWordOrMeaning_iff newMeaning).mp hb.2⟩
  simp [updateWord, hv]

/-! ## Claims about insertion and update -/

/-- C12 (insert changes no other word): for every trie, every alphabetic word `w` and
meaning `m`, and every alphabetic word `w'` whose lowercase form differs from that of `w`,
`insertWord(w, m)` returns `true` and `searchWord(w')` returns afterwards what it returned
before; afterwards the lowercase form of `w` is stored, and every other word is stored
exactly when it was stored before, so a stored word that is a prefix of `w`, or of which
`w` is a prefix, stays stored next to it, each at its own terminal node. -/
theorem insertWord_changes_no_other_word (t : TrieTree) (w m w' : List Char)
    (hroot : t.root.isNull = false) (hw : IsAlphabetic w) (hm : IsAlphabetic m)
    (hw' : IsAlphabetic w') (hne : w'.map tolower ≠ w.map tolower) :
    ∃ t', insertWord t w m = some (true, t') ∧ searchWord t' w' = searchWord t w' ∧
      Stored t' (w.map tolower) ∧
      ∀ v, v ≠ w.map tolower → (Stored t' v ↔ Stored t v) := by
  obtain ⟨n', hins, _, _⟩ := insertWordLoop_searchWordLoop w w m t.root hroot hw rfl
  refine ⟨⟨n'⟩, ?_, ?_, ?_, ?_⟩
  · simp [insertWord, (isValidWordOrMeaning_iff w).mpr hw,
      (isValidWordOrMeaning_iff m).mpr hm, hins]
  · simp [searchWord, (isValidWordOrMeaning_iff w').mpr hw',
      insertWordLoop_searchWordLoop_other w w' m t.root n' hw' hne hins]
  · exact (insertWordLoop_isTerminal_self w m t.root n' hins).1
  · intro v hv
    unfold Stored
    rw [insertWordLoop_isTerminal_other w v m t.root n' hv hins]

/-- Witness for C12: `Car` is inserted into the trie holding `cart`, and `cart` is
searched. -/
theorem insertWord_changes_no_other_word_witness :
    (trieOf [("cart", "wagon")]).root.isNull = false ∧ IsAlphabetic "Car".toList ∧
      IsAlphabetic "vehicle".toList ∧ IsAlphabetic "cart".toList ∧
      "cart".toList.map tolower ≠ "Car".toList.map tolower ∧
      ∃ t', insertWord (trieOf [("cart", "wagon")]) "Car".toList "vehicle".toList
          = some (true, t') ∧
        searchWord t' "cart".toList = searchWord (trieOf [("cart", "wagon")]) "cart".toList ∧
        Stored t' ("Car".toList.map tolower) ∧
        ∀ v, v ≠ "Car".toList.map tolower →
          (Stored t' v ↔ Stored (trieOf [("cart", "wagon")]) v) :=
  ⟨by decide, by decide, by decide, by decide, by decide,
    insertWord_changes_no_other_word (trieOf [("cart", "wagon")]) "Car".toList
      "vehicle".toList "cart".toList (by decide) (by decide) (by decide) (by decide)
      (by decide)⟩

/-- C13 (`updateWord`): for every trie, `updateWord(word, newMeaning)` returns; it returns
`true` exactly when both strings are alphabetic and the lowercased word is stored, and
then the node of the word carries `newMeaning`; whenever it returns `false` the trie is
exactly the trie before; in every case the trie afterwards has the same nodes with the
same terminal flags, and the same meanings at every path other than the word's. -/
theorem updateWord_true_iff_stored (t : TrieTree) (word newMeaning : List Char)
    (hroot : t.root.isNull = false) :
    ∃ b t', updateWord t word newMeaning = some (b, t') ∧
      (b = true ↔
        (IsAlphabetic word ∧ IsAlphabetic newMeaning ∧ Stored t (word.map tolower))) ∧
      (b = false → t' = t) ∧
      (b = true → (nodeAt t'.root (word.map tolower)).meaningOf = newMeaning) ∧
      ∀ v, (nodeAt t'.root v).isNull = (nodeAt t.root v).isNull ∧
        (nodeAt t'.root v).isTerminal = (nodeAt t.root v).isTerminal ∧
        (v ≠ word.map tolower → (nodeAt t'.root v).meaningOf = (nodeAt t.root v).meaningOf) := by
  by_cases hv : IsAlphabetic word ∧ IsAlphabetic newMeaning
  · obtain ⟨b, n', hupd, hb, hsame⟩ := updateWordLoop_returns word newMeaning t.root hroot hv.1
    refine ⟨b, ⟨n'⟩, updateWord_of_loop hv.1 hv.2 hupd, ?_, ?_, ?_, ?_⟩
    · rw [hb]
      exact ⟨fun h => ⟨hv.1, hv.2, h⟩, fun h => h.2.2⟩
    · intro hbf
      rw [hsame hbf]
    · intro hbt
      subst hbt
      exact updateWordLoop_meaning word newMeaning t.root n' hupd
    · exact updateWordLoop_observe word newMeaning t.root n' b hupd
  · refine ⟨false, t, updateWord_invalid hv, ?_, fun _ => rfl, ?_, ?_⟩
    · constructor
      · intro h; cases h
      · intro h; exact absurd ⟨h.1, h.2.1⟩ hv
    · intro h; cases h
    · exact fun v => ⟨rfl, rfl, fun _ => rfl⟩

/-- Witness for C13: `Cat` is updated in the trie holding `cat`. -/
theorem updateWord_true_iff_stored_witness :
    (trieOf [("cat", "feline")]).root.isNull = false ∧
      ∃ b t', updateWord (trieOf [("cat", "feline")]) "Cat".toList "pet".toList = some (b, t') ∧
        (b = true ↔ (IsAlphabetic "Cat".toList ∧ IsAlphabetic "pet".toList ∧
          Stored (trieOf [("cat", "feline")]) ("Cat".toList.map tolower))) ∧
        (b = false → t' = trieOf [("cat", "feline")]) ∧
        (b = true → (nodeAt t'.root ("Cat".toList.map tolower)).meaningOf = "pet".toList) ∧
        ∀ v, (nodeAt t'.root v).isNull = (nodeAt (trieOf [("cat", "feline")]).root v).isNull ∧
          (nodeAt t'.root v).isTerminal
            = (nodeAt (trieOf [("cat", "feline")]).root v).isTerminal ∧
          (v ≠ "Cat".toList.map tolower → (nodeAt t'.root v).meaningOf
            = (nodeAt (trieOf [("cat", "feline")]).root v).meaningOf) :=
  ⟨by decide,
    updateWord_true_iff_stored (trieOf [("cat", "feline")]) "Cat".toList "pet".toList
      (by decide)⟩

/-- C14 (last update wins): for every trie, every alphabetic word `w` whose lowercase form
is stored and every two alphabetic meanings `m1`, `m2`, the calls `updateWord(w, m1)` and
then `updateWord(w, m2)` both return `true`, and `searchWord(w)` then returns `m2`. -/
theorem updateWord_last_wins (t : TrieTree) (w m1 m2 : List Char)
    (hw : IsAlphabetic w) (hst : Stored t (w.map tolower))
    (hm1 : IsAlphabetic m1) (hm2 : IsAlphabetic m2) :
    ∃ t1 t2, updateWord t w m1 = some (true, t1) ∧ updateWord t1 w m2 = some (true, t2) ∧
      searchWord t2 w = some m2 := by
  have hroot : t.root.isNull = false := by
    cases h : t.root with
    | NULL => unfold Stored at hst; rw [h, nodeAt_NULL] at hst; cases hst
    | node _ _ _ _ => rfl
  obtain ⟨b1, n1, hupd1, hb1, _⟩ := updateWordLoop_returns w m1 t.root hroot hw
  have hb1t : b1 = true := hb1.mpr hst
  subst hb1t
  have hobs1 := updateWordLoop_observe w m1 t.root n1 true hupd1
  have hn1 : n1.isNull = false := by
    have := (hobs1 []).1
    rw [nodeAt_nil, nodeAt_nil] at this
    rw [this, hroot]
  have hst1 : (nodeAt n1 (w.map tolower)).isTerminal = true := by
    rw [(hobs1 _).2.1]; exact hst
  obtain ⟨b2, n2, hupd2, hb2, _⟩ := updateWordLoop_returns w m2 n1 hn1 hw
  have hb2t : b2 = true := hb2.mpr hst1
  subst hb2t
  have hobs2 := updateWordLoop_observe w m2 n1 n2 true hupd2
  have hn2 : n2.isNull = false := by
    have := (hobs2 []).1
    rw [nodeAt_nil, nodeAt_nil] at this
    rw [this, hn1]
  refine ⟨⟨n1⟩, ⟨n2⟩, updateWord_of_loop hw hm1 hupd1, updateWord_of_loop hw hm2 hupd2, ?_⟩
  simp only [searchWord, (isValidWordOrMeaning_iff w).mpr hw, Bool.not_true,
    Bool.false_eq_true, if_false]
  rw [searchWordLoop_eq_meaningOf w n2 hn2 hw, updateWordLoop_meaning w m2 n1 n2 hupd2]

/-- Witness for C14: `cat`, stored with the meaning `feline`, is updated twice. -/
theorem updateWord_last_wins_witness :
    IsAlphabetic "cat".toList ∧
      Stored (trieOf [("cat", "feline")]) ("cat".toList.map tolower) ∧
      IsAlphabetic "pet".toList ∧ IsAlphabetic "animal".toList ∧
      ∃ t1 t2, updateWord (trieOf [("cat", "feline")]) "cat".toList "pet".toList
          = some (true, t1) ∧
        updateWord t1 "cat".toList "animal".toList = some (true, t2) ∧
        searchWord t2 "cat".toList = some "animal".toList :=
  ⟨by decide, by decide, by decide, by decide,
    updateWord_last_wins (trieOf [("cat", "feline")]) "cat".toList "pet".toList
      "animal".toList (by decide) (by decide) (by decide) (by decide)⟩

/-! ## Invariants of the reachable tries -/

theorem All_update {Q : Bool → List Char → Prop} {ch : Fin 26 → TrieTreeNode} {i : Fin 26}
    {c : TrieTreeNode} (hch : ∀ j, (ch j).All Q) (hc : c.All Q) :
    ∀ j, (Function.update ch i c j).All Q := by
  intro j
  by_cases hji : j = i
  · subst hji; rw [Function.update_same]; exact hc
  · rw [Function.update_noteq hji]; exact hch j

theorem All_NULL (Q : Bool → List Char → Prop) : TrieTreeNode.NULL.All Q := by
  simp [TrieTreeNode.All]

theorem All_node {Q : Bool → List Char → Prop} {d : Char} {e : Bool} {m : List Char}
    {ch : Fin 26 → TrieTreeNode} :
    (TrieTreeNode.node d e m ch).All Q ↔ Q e m ∧ ∀ i, (ch i).All Q := by
  simp [TrieTreeNode.All]

theorem insertWordLoop_All {Q : Bool → List Char → Prop} (w : List Char) :
    ∀ (meaning : List Char) (n n' : TrieTreeNode), n.All Q → Q false [] → Q true meaning →
      insertWordLoop w meaning n = some n' → n'.All Q := by
  induction w with
  | nil =>
    intro meaning n n' hall _ hQ hins
    cases n with
    | NULL => simp [insertWordLoop] at hins
    | node d e m ch =>
      simp only [insertWordLoop, Option.some.injEq] at hins
      subst hins
      exact All_node.mpr ⟨hQ, (All_node.mp hall).2⟩
  | cons c r ih =>
    intro meaning n n' hall hfresh hQ hins
    cases n with
    | NULL => simp [insertWordLoop] at hins
    | node d e m ch =>
      simp only [insertWordLoop] at hins
      split at hins
      · cases hins
      · rename_i i hi
        split at hins
        · cases hins
        · rename_i child hchild
          simp only [Option.some.injEq] at hins
          subst hins
          have hch := (All_node.mp hall).2
          have h0 : (if (ch i).isNull then newTrieTreeNode (tolower c) else ch i).All Q := by
            split
            · exact All_node.mpr ⟨hfresh, fun _ => All_NULL Q⟩
            · exact hch i
          exact All_node.mpr ⟨(All_node.mp hall).1,
            All_update hch (ih meaning _ child h0 hfresh hQ hchild)⟩

theorem updateWordLoop_All {Q : Bool → List Char → Prop} (w : List Char) :
    ∀ (newMeaning : List Char) (n n' : TrieTreeNode) (b : Bool), n.All Q →
      Q true newMeaning → updateWordLoop w newMeaning n = some (b, n') → n'.All Q := by
  induction w with
  | nil =>
    intro newMeaning n n' b hall hQ hupd
    cases n with
    | NULL => simp [updateWordLoop] at hupd
    | node d e m ch =>
      simp only [updateWordLoop] at hupd
      split at hupd
      · rename_i he
        simp only [Option.some.injEq, Prod.mk.injEq] at hupd
        obtain ⟨_, rfl⟩ := hupd
        subst he
        exact All_node.mpr ⟨hQ, (All_node.mp hall).2⟩
      · simp only [Option.some.injEq, Prod.mk.injEq] at hupd
        obtain ⟨_, rfl⟩ := hupd
        exact hall
  | cons c r ih =>
    intro newMeaning n n' b hall hQ hupd
    cases n with
    | NULL => simp [updateWordLoop] at hupd
    | node d e m ch =>
      simp only [updateWordLoop] at hupd
      split at hupd
      · cases hupd
      · rename_i i hi
        split at hupd
        · simp only [Option.some.injEq, Prod.mk.injEq] at hupd
          obtain ⟨_, rfl⟩ := hupd
          exact hall
        · split at hupd
          · cases hupd
          · rename_i b' child hchild
            simp only [Option.some.injEq, Prod.mk.injEq] at hupd
            obtain ⟨_, rfl⟩ := hupd
            have hch := (All_node.mp hall).2
            exact All_node.mpr ⟨(All_node.mp hall).1,
              All_update hch (ih newMeaning (ch i) child b' (hch i) hQ hchild)⟩

theorem deleteWordHelper_All {Q : Bool → List Char → Prop} (n : TrieTreeNode) :
    ∀ (word : List Char) (depth : Nat) (b : Bool) (n' : TrieTreeNode), n.All Q →
      Q false [] → deleteWordHelper n word depth = some (b, n') → n'.All Q := by
  induction n with
  | NULL =>
    intro word depth b n' _ _ hdel
    simp only [deleteWordHelper, Option.some.injEq, Prod.mk.injEq] at hdel
    obtain ⟨_, rfl⟩ := hdel
    exact All_NULL Q
  | node d e m ch ih =>
    intro word depth b n' hall hfresh hdel
    have hch := (All_node.mp hall).2
    rw [deleteWordHelper] at hdel
    split at hdel
    · split at hdel
      · simp only [Option.some.injEq, Prod.mk.injEq] at hdel
        obtain ⟨_, rfl⟩ := hdel
        exact All_node.mpr ⟨hfresh, hch⟩
      · simp only [Option.some.injEq, Prod.mk.injEq] at hdel
        obtain ⟨_, rfl⟩ := hdel
        exact hall
    · split at hdel
      · cases hdel
      · split at hdel
        · cases hdel
        · rename_i i hi
          split at hdel
          · cases hdel
          · simp only [Option.some.injEq, Prod.mk.injEq] at hdel
            obtain ⟨_, rfl⟩ := hdel
            exact All_node.mpr ⟨(All_node.mp hall).1, All_update hch (All_NULL Q)⟩
          · rename_i child hchild
            simp only [Option.some.injEq, Prod.mk.injEq] at hdel
            obtain ⟨_, rfl⟩ := hdel
            exact All_node.mpr ⟨(All_node.mp hall).1,
              All_update hch (ih i word (depth + 1) false child (hch i) hfresh hchild)⟩

theorem Live_node {d : Char} {e : Bool} {m : List Char} {ch : Fin 26 → TrieTreeNode} :
    (TrieTreeNode.node d e m ch).Live ↔
      (e = true ∨ ∃ i, (ch i).isNull = false) ∧ ∀ i, (ch i).Live := by
  simp [TrieTreeNode.Live]

theorem Live_NULL : TrieTreeNode.NULL.Live := by
  simp [TrieTreeNode.Live]

theorem ChildrenLive_node {d : Char} {e : Bool} {m : List Char}
    {ch : Fin 26 → TrieTreeNode} :
    (TrieTreeNode.node d e m ch).ChildrenLive ↔ ∀ i, (ch i).Live := by
  simp [TrieTreeNode.ChildrenLive]

theorem childrenLive_of_live {n : TrieTreeNode} (h : n.Live) : n.ChildrenLive := by
  cases n with
  | NULL => simp [TrieTreeNode.ChildrenLive]
  | node d e m ch => exact ChildrenLive_node.mpr (Live_node.mp h).2

theorem Live_update {ch : Fin 26 → TrieTreeNode} {i : Fin 26} {c : TrieTreeNode}
    (hch : ∀ j, (ch j).Live) (hc : c.Live) : ∀ j, (Function.update ch i c j).Live := by
  intro j
  by_cases hji : j = i
  · subst hji; rw [Function.update_same]; exact hc
  · rw [Function.update_noteq hji]; exact hch j

theorem exists_child_update {ch : Fin 26 → TrieTreeNode} {i : Fin 26} {c : TrieTreeNode}
    (hc : c.isNull = (ch i).isNull) (h : ∃ j, (ch j).isNull = false) :
    ∃ j, (Function.update ch i c j).isNull = false := by
  obtain ⟨j, hj⟩ := h
  refine ⟨j, ?_⟩
  by_cases hji : j = i
  · subst hji; rw [Function.update_same, hc]; exact hj
  · rw [Function.update_noteq hji]; exact hj

theorem insertWordLoop_Live (w : List Char) :
    ∀ (meaning : List Char) (n n' : TrieTreeNode), n.ChildrenLive →
      insertWordLoop w meaning n = some n' → n'.Live := by
  induction w with
  | nil =>
    intro meaning n n' hlive hins
    cases n with
    | NULL => simp [insertWordLoop] at hins
    | node d e m ch =>
      simp only [insertWordLoop, Option.some.injEq] at hins
      subst hins
      exact Live_node.mpr ⟨Or.inl rfl, ChildrenLive_node.mp hlive⟩
  | cons c r ih =>
    intro meaning n n' hlive hins
    cases n with
    | NULL => simp [insertWordLoop] at hins
    | node d e m ch =>
      simp only [insertWordLoop] at hins
      split at hins
      · cases hins
      · rename_i i hi
        split at hins
        · cases hins
        · rename_i child hchild
          simp only [Option.some.injEq] at hins
          subst hins
          have hch := ChildrenLive_node.mp hlive
          have h0 : (if (ch i).isNull then newTrieTreeNode (tolower c)
              else ch i).ChildrenLive := by
            split
            · exact ChildrenLive_node.mpr (fun _ => Live_NULL)
            · exact childrenLive_of_live (hch i)
          refine Live_node.mpr ⟨Or.inr ⟨i, ?_⟩, Live_update hch (ih meaning _ child h0 hchild)⟩
          rw [Function.update_same]
          exact insertWordLoop_ne_null hchild

theorem updateWordLoop_Live (w : List Char) :
    ∀ (newMeaning : List Char) (n n' : TrieTreeNode) (b : Bool),
      updateWordLoop w newMeaning n = some (b, n') →
      n'.isNull = n.isNull ∧ (n.Live → n'.Live) ∧ (n.ChildrenLive → n'.ChildrenLive) := by
  induction w with
  | nil =>
    intro newMeaning n n' b hupd
    cases n with
    | NULL => simp [updateWordLoop] at hupd
    | node d e m ch =>
      simp only [updateWordLoop] at hupd
      split at hupd
      · simp only [Option.some.injEq, Prod.mk.injEq] at hupd
        obtain ⟨_, rfl⟩ := hupd
        exact ⟨rfl, fun h => Live_node.mpr (Live_node.mp h),
          fun h => ChildrenLive_node.mpr (ChildrenLive_node.mp h)⟩
      · simp only [Option.some.injEq, Prod.mk.injEq] at hupd
        obtain ⟨_, rfl⟩ := hupd
        exact ⟨rfl, id, id⟩
  | cons c r ih =>
    intro newMeaning n n' b hupd
    cases n with
    | NULL => simp [updateWordLoop] at hupd
    | node d e m ch =>
      simp only [updateWordLoop] at hupd
      split at hupd
      · cases hupd
      · rename_i i hi
        split at hupd
        · simp only [Option.some.injEq, Prod.mk.injEq] at hupd
          obtain ⟨_, rfl⟩ := hupd
          exact ⟨rfl, id, id⟩
        · split at hupd
          · cases hupd
          · rename_i b' child hchild
            simp only [Option.some.injEq, Prod.mk.injEq] at hupd
            obtain ⟨_, rfl⟩ := hupd
            obtain ⟨hnull, hl, _⟩ := ih newMeaning (ch i) child b' hchild
            refine ⟨rfl, ?_, ?_⟩
            · intro h
              obtain ⟨h1, h2⟩ := Live_node.mp h
              refine Live_node.mpr ⟨?_, Live_update h2 (hl (h2 i))⟩
              rcases h1 with h1 | h1
              · exact Or.inl h1
              · exact Or.inr (exists_child_update hnull h1)
            · intro h
              have h2 := ChildrenLive_node.mp h
              exact ChildrenLive_node.mpr (Live_update h2 (hl (h2 i)))

theorem deleteWordHelper_Live (n : TrieTreeNode) :
    ∀ (word : List Char) (depth : Nat) (b : Bool) (n' : TrieTreeNode),
      deleteWordHelper n word depth = some (b, n') →
      n'.isNull = n.isNull ∧ (n.ChildrenLive → n'.ChildrenLive) ∧
        (n.Live → b = false → n'.Live) := by
  induction n with
  | NULL =>
    intro word depth b n' hdel
    simp only [deleteWordHelper, Option.some.injEq, Prod.mk.injEq] at hdel
    obtain ⟨_, rfl⟩ := hdel
    exact ⟨rfl, id, fun h _ => h⟩
  | node d e m ch ih =>
    intro word depth b n' hdel
    rw [deleteWordHelper] at hdel
    split at hdel
    · split at hdel
      · simp only [Option.some.injEq, Prod.mk.injEq] at hdel
        obtain ⟨rfl, rfl⟩ := hdel
        refine ⟨rfl, fun h => ChildrenLive_node.mpr (ChildrenLive_node.mp h), ?_⟩
        intro _ hb
        cases hb
      · simp only [Option.some.injEq, Prod.mk.injEq] at hdel
        obtain ⟨_, rfl⟩ := hdel
        exact ⟨rfl, id, fun h _ => h⟩
    · split at hdel
      · cases hdel
      · split at hdel
        · cases hdel
        · rename_i i hi
          split at hdel
          · cases hdel
          · simp only [Option.some.injEq, Prod.mk.injEq] at hdel
            obtain ⟨hb, rfl⟩ := hdel
            refine ⟨rfl, ?_, ?_⟩
            · intro h
              exact ChildrenLive_node.mpr (Live_update (ChildrenLive_node.mp h) Live_NULL)
            · intro h hbf
              rw [hbf] at hb
              simp only [Bool.or_eq_false_iff, Bool.not_eq_false'] at hb
              refine Live_node.mpr ⟨Or.inr ((hasChildren_node _ _ _ _).mp hb.2),
                Live_update (Live_node.mp h).2 Live_NULL⟩
          · rename_i child hchild
            simp only [Option.some.injEq, Prod.mk.injEq] at hdel
            obtain ⟨_, rfl⟩ := hdel
            obtain ⟨hnull, _, hl⟩ := ih i word (depth + 1) false child hchild
            refine ⟨rfl, ?_, ?_⟩
            · intro h
              have h2 := ChildrenLive_node.mp h
              exact ChildrenLive_node.mpr (Live_update h2 (hl (h2 i) rfl))
            · intro h _
              obtain ⟨h1, h2⟩ := Live_node.mp h
              refine Live_node.mpr ⟨?_, Live_update h2 (hl (h2 i) rfl)⟩
              rcases h1 with h1 | h1
              · exact Or.inl h1
              · exact Or.inr (exists_child_update hnull h1)

theorem insertWord_cases {t t' : TrieTree} {w m : List Char} {b : Bool}
    (h : insertWord t w m = some (b, t')) :
    t' = t ∨ insertWordLoop w m t.root = some t'.root := by
  unfold insertWord at h
  split at h
  · simp only [Option.some.injEq, Prod.mk.injEq] at h
    exact Or.inl h.2.symm
  · split at h
    · cases h
    · rename_i root hroot
      simp only [Option.some.injEq, Prod.mk.injEq] at h
      obtain ⟨_, rfl⟩ := h
      exact Or.inr hroot

theorem updateWord_cases {t t' : TrieTree} {w m : List Char} {b : Bool}
    (h : updateWord t w m = some (b, t')) :
    t' = t ∨ updateWordLoop w m t.root = some (b, t'.root) := by
  unfold updateWord at h
  split at h
  · simp only [Option.some.injEq, Prod.mk.injEq] at h
    exact Or.inl h.2.symm
  · split at h
    · cases h
    · rename_i b' root hroot
      simp only [Option.some.injEq, Prod.mk.injEq] at h
      obtain ⟨rfl, rfl⟩ := h
      exact Or.inr hroot

theorem deleteWord_cases {t t' : TrieTree} {w : List Char}
    (h : deleteWord t w = some t') :
    t' = t ∨ ∃ b, deleteWordHelper t.root w 0 = some (b, t'.root) := by
  unfold deleteWord at h
  split at h
  · split at h
    · cases h
    · rename_i b root hroot
      simp only [Option.some.injEq] at h
      subst h
      exact Or.inr ⟨b, hroot⟩
  · simp only [Option.some.injEq] at h
    exact Or.inl h.symm

theorem updateWordLoop_arg_ne_null {w m : List Char} {n n' : TrieTreeNode} {b : Bool}
    (h : updateWordLoop w m n = some (b, n')) : n.isNull = false := by
  cases n with
  | NULL => cases w <;> simp [updateWordLoop] at h
  | node _ _ _ _ => rfl

theorem reachableWith_root_ne_null {P : List Char → Prop} {t : TrieTree}
    (h : ReachableWith P t) : t.root.isNull = false := by
  induction h with
  | new => rfl
  | insertWord word meaning _ _ hop ih =>
    rcases insertWord_cases hop with rfl | h
    · exact ih
    · exact insertWordLoop_ne_null h
  | updateWord word newMeaning _ _ hop ih =>
    rcases updateWord_cases hop with rfl | h
    · exact ih
    · rw [(updateWordLoop_Live word newMeaning _ _ _ h).1]
      exact updateWordLoop_arg_ne_null h
  | deleteWord word _ hop ih =>
    rcases deleteWord_cases hop with rfl | ⟨b, h⟩
    · exact ih
    · rw [(deleteWordHelper_Live _ word 0 b _ h).1]
      exact ih

theorem reachableWith_All {P : List Char → Prop} {Q : Bool → List Char → Prop}
    (hfresh : Q false []) (hP : ∀ m, P m → Q true m) {t : TrieTree}
    (h : ReachableWith P t) : t.root.All Q := by
  induction h with
  | new => exact All_node.mpr ⟨hfresh, fun _ => All_NULL Q⟩
  | insertWord word meaning _ hm hop ih =>
    rcases insertWord_cases hop with rfl | h
    · exact ih
    · exact insertWordLoop_All word meaning _ _ ih hfresh (hP meaning hm) h
  | updateWord word newMeaning _ hm hop ih =>
    rcases updateWord_cases hop with rfl | h
    · exact ih
    · exact updateWordLoop_All word newMeaning _ _ _ ih (hP newMeaning hm) h
  | deleteWord word _ hop ih =>
    rcases deleteWord_cases hop with rfl | ⟨b, h⟩
    · exact ih
    · exact deleteWordHelper_All _ word 0 b _ ih hfresh h

theorem reachableWith_childrenLive {P : List Char → Prop} {t : TrieTree}
    (h : ReachableWith P t) : t.root.ChildrenLive := by
  induction h with
  | new => exact ChildrenLive_node.mpr (fun _ => Live_NULL)
  | insertWord word meaning _ _ hop ih =>
    rcases insertWord_cases hop with rfl | h
    · exact ih
    · exact childrenLive_of_live (insertWordLoop_Live word meaning _ _ ih h)
  | updateWord word newMeaning _ _ hop ih =>
    rcases updateWord_cases hop with rfl | h
    · exact ih
    · exact (updateWordLoop_Live word newMeaning _ _ _ h).2.2 ih
  | deleteWord word _ hop ih =>
    rcases deleteWord_cases hop with rfl | ⟨b, h⟩
    · exact ih
    · exact (deleteWordHelper_Live _ word 0 b _ h).2.1 ih

theorem reachableWith_trieOf {P : List Char → Prop} (entries : List (String × String))
    (hP : ∀ e ∈ entries, P e.2.toList) : ReachableWith P (trieOf entries) := by
  unfold trieOf
  have key : ∀ (l : List (String × String)) (t : TrieTree), (∀ e ∈ l, P e.2.toList) →
      ReachableWith P t →
      ReachableWith P (l.foldl
        (fun t entry =>
          match insertWord t entry.1.toList entry.2.toList with
          | some (_, t') => t'
          | none => t) t) := by
    intro l
    induction l with
    | nil => intro t _ ht; exact ht
    | cons e l ih =>
      intro t hl ht
      rw [List.foldl_cons]
      apply ih _ (fun x hx => hl x (List.mem_cons_of_mem _ hx))
      cases hop : insertWord t e.1.toList e.2.toList with
      | none => exact ht
      | some r =>
        obtain ⟨b, t'⟩ := r
        exact ReachableWith.insertWord e.1.toList e.2.toList ht
          (hl e (List.mem_cons_self _ _)) hop
  exact key entries TrieTree.new hP ReachableWith.new

theorem All_nodeAt {Q : Bool → List Char → Prop} (v : List Char) :
    ∀ (n : TrieTreeNode), n.All Q → (nodeAt n v).All Q := by
  induction v with
  | nil => intro n h; rw [nodeAt_nil]; exact h
  | cons x v ih =>
    intro n h
    cases n with
    | NULL => rw [nodeAt_NULL]; exact All_NULL Q
    | node d e m ch =>
      cases hx : slot (letterIndex x) with
      | none => rw [nodeAt_cons_node_none _ _ _ _ _ _ hx]; exact All_NULL Q
      | some i =>
        rw [nodeAt_cons_node _ _ _ _ _ _ i hx]
        exact ih (ch i) ((All_node.mp h).2 i)

theorem Live_nodeAt (v : List Char) :
    ∀ (n : TrieTreeNode), n.Live → (nodeAt n v).Live := by
  induction v with
  | nil => intro n h; rw [nodeAt_nil]; exact h
  | cons x v ih =>
    intro n h
    cases n with
    | NULL => rw [nodeAt_NULL]; exact Live_NULL
    | node d e m ch =>
      cases hx : slot (letterIndex x) with
      | none => rw [nodeAt_cons_node_none _ _ _ _ _ _ hx]; exact Live_NULL
      | some i =>
        rw [nodeAt_cons_node _ _ _ _ _ _ i hx]
        exact ih (ch i) ((Live_node.mp h).2 i)

theorem Live_exists_terminal (n : TrieTreeNode) :
    n.Live → n.isNull = false → ∃ s, (nodeAt n s).isTerminal = true := by
  induction n with
  | NULL => intro _ h; simp [TrieTreeNode.isNull] at h
  | node d e m ch ih =>
    intro hlive _
    obtain ⟨h1, h2⟩ := Live_node.mp hlive
    rcases h1 with h1 | ⟨i, hi⟩
    · exact ⟨[], by subst h1; rfl⟩
    · obtain ⟨s, hs⟩ := ih i (h2 i) hi
      refine ⟨Char.ofNat (97 + i.val) :: s, ?_⟩
      rw [nodeAt_cons_node _ _ _ _ _ _ i (slot_letter i)]
      exact hs

theorem childrenLive_nonroot_live {n : TrieTreeNode} (h : n.ChildrenLive) {q : List Char}
    (hq : q ≠ []) : (nodeAt n q).Live := by
  cases q with
  | nil => exact absurd rfl hq
  | cons x v =>
    cases n with
    | NULL => rw [nodeAt_NULL]; exact Live_NULL
    | node d e m ch =>
      cases hx : slot (letterIndex x) with
      | none => rw [nodeAt_cons_node_none _ _ _ _ _ _ hx]; exact Live_NULL
      | some i =>
        rw [nodeAt_cons_node _ _ _ _ _ _ i hx]
        exact Live_nodeAt v _ (ChildrenLive_node.mp h i)

theorem nodeAt_ne_null_of_prefix {n : TrieTreeNode} {q v : List Char} (hqv : q <+: v)
    (h : (nodeAt n v).isNull = false) : (nodeAt n q).isNull = false := by
  obtain ⟨s, rfl⟩ := hqv
  rw [nodeAt_append] at h
  cases hq : nodeAt n q with
  | NULL => rw [hq, nodeAt_NULL] at h; exact h
  | node _ _ _ _ => rfl

theorem deleteWordHelper_frame (rest : List Char) :
    ∀ (pre : List Char) (n : TrieTreeNode), IsLowercase rest →
      (nodeAt n rest).isTerminal = true →
      (∀ q, q <+: rest → q ≠ rest → (nodeAt n q).isTerminal = false) →
      (∀ s, s ≠ [] → (nodeAt n (rest ++ s)).isTerminal = false) →
      ∃ b n', deleteWordHelper n (pre ++ rest) pre.length = some (b, n') ∧
        (∀ v, (nodeAt n' v).isTerminal = if v = rest then false else (nodeAt n v).isTerminal) ∧
        (b = true → ∀ v, v ≠ rest → (nodeAt n v).isTerminal = false) := by
  induction rest with
  | nil =>
    intro pre n _ hterm _ hext
    cases n with
    | NULL => simp [nodeAt, TrieTreeNode.isTerminal] at hterm
    | node d e m ch =>
      have he : e = true := by simpa [nodeAt, TrieTreeNode.isTerminal] using hterm
      subst he
      refine ⟨true, .node d false [] ch, by simp [deleteWordHelper], ?_, ?_⟩
      · intro v
        cases v with
        | nil => rfl
        | cons x v' => simp [nodeAt]
      · intro _ v hv
        have := hext v hv
        simpa using this
  | cons c r ih =>
    intro pre n hlow hterm hpre hext
    cases n with
    | NULL => simp [nodeAt, TrieTreeNode.isTerminal] at hterm
    | node d e m ch =>
      have hc := hlow c (List.mem_cons_self _ _)
      obtain ⟨i, hi⟩ := slot_of_lower hc
      rw [nodeAt_cons_node d e m ch c r i hi] at hterm
      have he : e = false := by
        have := hpre [] List.nil_prefix (by simp)
        simpa [nodeAt, TrieTreeNode.isTerminal] using this
      subst he
      have hpre' : ∀ q, q <+: r → q ≠ r → (nodeAt (ch i) q).isTerminal = false := by
        intro q hq hne
        have := hpre (c :: q) ((List.cons_prefix_cons).mpr ⟨rfl, hq⟩) (by simpa using hne)
        rwa [nodeAt_cons_node d false m ch c q i hi] at this
      have hext' : ∀ s, s ≠ [] → (nodeAt (ch i) (r ++ s)).isTerminal = false := by
        intro s hs
        have := hext s hs
        rwa [List.cons_append, nodeAt_cons_node d false m ch c _ i hi] at this
      obtain ⟨b', c', hdel, hobs, hlone⟩ := ih (pre ++ [c]) (ch i)
        (fun x hx => hlow x (List.mem_cons_of_mem _ hx)) hterm hpre' hext'
      rw [deleteWordHelper_step d false m ch pre c r i hi, hdel]
      -- the terminal flags of the node after the call, for either outcome of the child
      have hflags : ∀ (child : TrieTreeNode),
          (∀ v', (nodeAt child v').isTerminal
            = if v' = r then false else (nodeAt (ch i) v').isTerminal) →
          ∀ v, (nodeAt (.node d false m (Function.update ch i child)) v).isTerminal
            = if v = c :: r then false else (nodeAt (.node d false m ch) v).isTerminal := by
        intro child hchild v
        cases v with
        | nil => simp [nodeAt, TrieTreeNode.isTerminal]
        | cons x v' =>
          cases hx : slot (letterIndex x) with
          | none =>
            rw [nodeAt_cons_node_none _ _ _ _ _ _ hx, nodeAt_cons_node_none _ _ _ _ _ _ hx]
            simp [TrieTreeNode.isTerminal]
          | some j =>
            rw [nodeAt_cons_node _ _ _ _ _ _ j hx, nodeAt_cons_node _ _ _ _ _ _ j hx]
            by_cases hji : j = i
            · subst hji
              have hxc : x = c := slot_injective_of_lower hx hi
              subst hxc
              rw [Function.update_same, hchild v']
              simp
            · rw [Function.update_noteq hji]
              have hxc : x ≠ c := by
                intro h
                subst h
                rw [hi] at hx
                exact hji (Option.some.inj hx).symm
              simp [hxc]
      cases b' with
      | true =>
        have hnull : ∀ v', (nodeAt TrieTreeNode.NULL v').isTerminal
            = if v' = r then false else (nodeAt (ch i) v').isTerminal := by
          intro v'
          rw [nodeAt_NULL]
          by_cases hv' : v' = r
          · simp [hv', TrieTreeNode.isTerminal]
          · simp only [hv', if_false]
            rw [hlone rfl v' hv']
            rfl
        refine ⟨_, _, rfl, hflags .NULL hnull, ?_⟩
        intro hb v hv
        simp only [Bool.false_or, Bool.not_eq_true'] at hb
        cases v with
        | nil => rfl
        | cons x v' =>
          cases hx : slot (letterIndex x) with
          | none => rw [nodeAt_cons_node_none _ _ _ _ _ _ hx]; rfl
          | some j =>
            rw [nodeAt_cons_node _ _ _ _ _ _ j hx]
            by_cases hji : j = i
            · subst hji
              have hxc : x = c := slot_injective_of_lower hx hi
              subst hxc
              exact hlone rfl v' (by simpa using hv)
            · have hcj : (ch j).isNull = true := by
                by_contra hcon
                have hex : hasChildren (.node d false m (Function.update ch i .NULL)) = true :=
                  (hasChildren_node _ _ _ _).mpr
                    ⟨j, by rw [Function.update_noteq hji]; simpa using hcon⟩
                rw [hex] at hb
                cases hb
              have hcj' : ch j = .NULL := by
                cases h : ch j with
                | NULL => rfl
                | node _ _ _ _ => rw [h] at hcj; simp [TrieTreeNode.isNull] at hcj
              rw [hcj', nodeAt_NULL]
              rfl
      | false =>
        refine ⟨_, _, rfl, hflags c' hobs, ?_⟩
        intro hb
        cases hb

theorem eq_NULL_of_isNull {n : TrieTreeNode} (h : n.isNull = true) : n = .NULL := by
  cases n with
  | NULL => rfl
  | node _ _ _ _ => simp [TrieTreeNode.isNull] at h

theorem insertWordLoop_deleteWordHelper (w : List Char) :
    ∀ (pre : List Char) (n : TrieTreeNode) (meaning : List Char), IsLowercase w →
      n.isNull = false → n.ChildrenLive →
      (∀ q, q <+: w → (nodeAt n q).isTerminal = false) → nodeAt n w = .NULL →
      ∃ n1, insertWordLoop w meaning n = some n1 ∧
        deleteWordHelper n1 (pre ++ w) pre.length = some (!hasChildren n, n) := by
  induction w with
  | nil =>
    intro pre n meaning _ hn _ _ hnull
    rw [nodeAt_nil] at hnull
    rw [hnull] at hn
    simp [TrieTreeNode.isNull] at hn
  | cons c r ih =>
    intro pre n meaning hlow hn hlive hpre hnull
    cases n with
    | NULL => simp [TrieTreeNode.isNull] at hn
    | node d e m ch =>
      have hc := hlow c (List.mem_cons_self _ _)
      have hr : IsLowercase r := fun x hx => hlow x (List.mem_cons_of_mem _ hx)
      obtain ⟨i, hi⟩ := slot_of_lower hc
      have hi' : slot (letterIndex (tolower c)) = some i := by
        rw [tolower_of_lower hc]; exact hi
      have he : e = false := by
        have := hpre [] List.nil_prefix
        simpa [nodeAt, TrieTreeNode.isTerminal] using this
      subst he
      rw [nodeAt_cons_node d false m ch c r i hi] at hnull
      by_cases hci : (ch i).isNull = true
      · have hci' := eq_NULL_of_isNull hci
        obtain ⟨c1, c1', hins, hdel⟩ := deleteWordHelper_fresh_chain r (pre ++ [c]) c meaning hr
        have hupd : Function.update (Function.update ch i c1) i .NULL = ch := by
          rw [Function.update_idem, ← hci', Function.update_eq_self]
        refine ⟨.node d false m (Function.update ch i c1), ?_, ?_⟩
        · rw [insertWordLoop_cons c r meaning d false m ch i hi']
          simp only [hci, if_true, tolower_of_lower hc, hins]
        · rw [deleteWordHelper_step d false m _ pre c r i hi]
          simp only [Function.update_same, hdel, hupd, Bool.false_or]
      · have hci' : (ch i).isNull = false := by simpa using hci
        have hlivei := ChildrenLive_node.mp hlive i
        have hpre' : ∀ q, q <+: r → (nodeAt (ch i) q).isTerminal = false := by
          intro q hq
          have := hpre (c :: q) ((List.cons_prefix_cons).mpr ⟨rfl, hq⟩)
          rwa [nodeAt_cons_node d false m ch c q i hi] at this
        obtain ⟨c1, hins, hdel⟩ := ih (pre ++ [c]) (ch i) meaning hr hci'
          (childrenLive_of_live hlivei) hpre' hnull
        have hhas : hasChildren (ch i) = true := by
          cases hch : ch i with
          | NULL => rw [hch] at hci'; simp [TrieTreeNode.isNull] at hci'
          | node d' e' m' ch' =>
            rw [hch] at hlivei
            have hterm := hpre' [] List.nil_prefix
            rw [nodeAt_nil, hch] at hterm
            have he' : e' = false := by simpa [TrieTreeNode.isTerminal] using hterm
            rcases (Live_node.mp hlivei).1 with h | h
            · rw [he'] at h; cases h
            · exact (hasChildren_node _ _ _ _).mpr h
        have hhasn : hasChildren (.node d false m ch) = true :=
          (hasChildren_node _ _ _ _).mpr ⟨i, hci'⟩
        refine ⟨.node d false m (Function.update ch i c1), ?_, ?_⟩
        · rw [insertWordLoop_cons c r meaning d false m ch i hi']
          simp only [hci', Bool.false_eq_true, if_false, hins]
        · rw [deleteWordHelper_step d false m _ pre c r i hi]
          simp only [Function.update_same, hdel, hhas, hhasn, Bool.not_true,
            Function.update_idem, Function.update_eq_self]

theorem meaningOf_of_All_nonterminal {n : TrieTreeNode}
    (h : n.All (fun e m => e = false → m = [])) (hterm : n.isTerminal = false) :
    n.meaningOf = [] := by
  cases n with
  | NULL => rfl
  | node d e m ch => exact (All_node.mp h).1 hterm

theorem meaningOf_of_All_terminal {n : TrieTreeNode}
    (h : n.All (fun e m => e = true → m ≠ [])) (hterm : n.isTerminal = true) :
    n.meaningOf ≠ [] := by
  cases n with
  | NULL => simp [TrieTreeNode.isTerminal] at hterm
  | node d e m ch => exact (All_node.mp h).1 hterm

theorem deleteWord_root_of_helper {t t' : TrieTree} {w : List Char} {b : Bool}
    {n' : TrieTreeNode} (hdel : deleteWord t w = some t') (hw : IsAlphabetic w)
    (h : deleteWordHelper t.root w 0 = some (b, n')) : t'.root = n' := by
  simp only [deleteWord, (isValidWordOrMeaning_iff w).mpr hw, if_true, h,
    Option.some.injEq] at hdel
  rw [← hdel]

theorem not_stored_prefix_of_inits {t : TrieTree} {w : List Char}
    (h : ∀ u ∈ w.inits, ¬ Stored t u) : ∀ u, Stored t u → ¬ u <+: w :=
  fun u hu hpre => h u ((List.mem_inits _ _).mpr hpre) hu

theorem not_stored_extension_of_null {t : TrieTree} {w : List Char}
    (h : (nodeAt t.root w).isNull = true) : ∀ v, Stored t v → ¬ w <+: v := by
  rintro v hv ⟨s, rfl⟩
  unfold Stored at hv
  rw [nodeAt_append, eq_NULL_of_isNull h, nodeAt_NULL] at hv
  cases hv

/-! ## Claims about the reachable tries -/

/-- C16: in every trie reachable from the empty trie by `insertWord`, `updateWord` and
`deleteWord`, every node that is not terminal has an empty meaning; consequently
`searchWord` of an alphabetic word whose path exists but ends in a non-terminal node
returns the not-found value, the empty string. -/
theorem reachable_nonterminal_meaning_empty (t : TrieTree) (hreach : Reachable t) :
    (∀ v, (nodeAt t.root v).isTerminal = false → (nodeAt t.root v).meaningOf = []) ∧
      ∀ w, IsAlphabetic w → (nodeAt t.root (w.map tolower)).isNull = false →
        (nodeAt t.root (w.map tolower)).isTerminal = false → searchWord t w = some [] := by
  have hall : t.root.All (fun e m => e = false → m = []) :=
    reachableWith_All (fun _ => rfl) (fun _ _ h => by cases h) hreach
  have h1 : ∀ v, (nodeAt t.root v).isTerminal = false → (nodeAt t.root v).meaningOf = [] :=
    fun v hv => meaningOf_of_All_nonterminal (All_nodeAt v _ hall) hv
  refine ⟨h1, ?_⟩
  intro w hw _ hterm
  simp only [searchWord, (isValidWordOrMeaning_iff w).mpr hw, Bool.not_true,
    Bool.false_eq_true, if_false]
  rw [searchWordLoop_eq_meaningOf w t.root (reachableWith_root_ne_null hreach) hw,
    h1 _ hterm]

/-- Witness for C16: the trie holding `cat` and `car`, in which the path of `ca` exists
and ends in a non-terminal node. -/
theorem reachable_nonterminal_meaning_empty_witness :
    Reachable (trieOf [("cat", "feline"), ("car", "vehicle")]) ∧
      (nodeAt (trieOf [("cat", "feline"), ("car", "vehicle")]).root "ca".toList).isNull = false ∧
      (nodeAt (trieOf [("cat", "feline"), ("car", "vehicle")]).root "ca".toList).isTerminal
        = false ∧
      searchWord (trieOf [("cat", "feline"), ("car", "vehicle")]) "ca".toList = some [] :=
  ⟨reachableWith_trieOf _ (fun _ _ => trivial), by decide, by decide,
    (reachable_nonterminal_meaning_empty (trieOf [("cat", "feline"), ("car", "vehicle")])
      (reachableWith_trieOf _ (fun _ _ => trivial))).2 "ca".toList (by decide) (by decide)
      (by decide)⟩

/-- C17 (no dangling branches): in every trie `t` reachable from the empty trie by
`insertWord`, `updateWord` and `deleteWord`, every non-root node is terminal or has a
terminal descendant.  Hence, when a stored lowercase word `w` is deleted, a node on the
path of `w` exists afterwards exactly when it lies on the path of a word that is still
stored: the walk along `w` breaks at the first node after the prefix shared with the
remaining words.  When moreover no other stored word is a prefix of `w` and `w` is a
prefix of no other stored word, the remaining words are exactly the other stored words
of `t`. -/
theorem reachable_no_dangling (t : TrieTree) (hreach : Reachable t) :
    (∀ q, q ≠ [] → (nodeAt t.root q).isNull = false →
        ∃ s, (nodeAt t.root (q ++ s)).isTerminal = true) ∧
      ∀ w t', IsLowercase w → Stored t w → deleteWord t w = some t' →
        (∀ q, q ≠ [] → q <+: w →
          ((nodeAt t'.root q).isNull = false ↔ ∃ v, Stored t' v ∧ q <+: v)) ∧
        ((∀ u, Stored t u → u <+: w → u = w) → (∀ v, Stored t v → w <+: v → v = w) →
          (∀ v, Stored t' v ↔ (Stored t v ∧ v ≠ w)) ∧
          ∀ q, q ≠ [] → q <+: w →
            ((nodeAt t'.root q).isNull = false ↔ ∃ v, v ≠ w ∧ Stored t v ∧ q <+: v)) := by
  have key : ∀ t0 : TrieTree, Reachable t0 → ∀ q, q ≠ [] →
      ((nodeAt t0.root q).isNull = false ↔ ∃ v, Stored t0 v ∧ q <+: v) := by
    intro t0 h0 q hq
    constructor
    · intro hnn
      obtain ⟨s, hs⟩ := Live_exists_terminal _
        (childrenLive_nonroot_live (reachableWith_childrenLive h0) hq) hnn
      exact ⟨q ++ s, by unfold Stored; rw [nodeAt_append]; exact hs, List.prefix_append _ _⟩
    · rintro ⟨v, hv, hqv⟩
      exact nodeAt_ne_null_of_prefix hqv (isTerminal_ne_null hv)
  refine ⟨?_, ?_⟩
  · intro q hq hnn
    obtain ⟨v, hv, s, rfl⟩ := (key t hreach q hq).mp hnn
    exact ⟨s, hv⟩
  · intro w t' hlow hst hdel
    have hreach' : Reachable t' := ReachableWith.deleteWord w hreach hdel
    refine ⟨fun q hq _ => key t' hreach' q hq, ?_⟩
    intro hnopre hnoext
    have h1 : ∀ q, q <+: w → q ≠ w → (nodeAt t.root q).isTerminal = false := by
      intro q hqw hne
      apply isTerminal_eq_false_of_not
      intro hterm
      exact hne (hnopre q hterm hqw)
    have h2 : ∀ s, s ≠ [] → (nodeAt t.root (w ++ s)).isTerminal = false := by
      intro s hs
      apply isTerminal_eq_false_of_not
      intro hterm
      have := hnoext (w ++ s) hterm (List.prefix_append _ _)
      exact hs (by simpa using this)
    obtain ⟨b, n', hhelper, hflags, _⟩ := deleteWordHelper_frame w [] t.root hlow hst h1 h2
    simp only [List.nil_append, List.length_nil] at hhelper
    have hroot' := deleteWord_root_of_helper hdel hlow.isAlphabetic hhelper
    have hstored : ∀ v, Stored t' v ↔ (Stored t v ∧ v ≠ w) := by
      intro v
      unfold Stored
      rw [hroot', hflags v]
      by_cases hv : v = w
      · simp [hv]
      · simp [hv]
    refine ⟨hstored, ?_⟩
    intro q hq _
    rw [key t' hreach' q hq]
    constructor
    · rintro ⟨v, hv, hqv⟩
      exact ⟨v, ((hstored v).mp hv).2, ((hstored v).mp hv).1, hqv⟩
    · rintro ⟨v, hne, hv, hqv⟩
      exact ⟨v, (hstored v).mpr ⟨hv, hne⟩, hqv⟩

/-- Witness for C17: the trie holding `cat` and `car`; after `cat` is deleted the node of
`ca` is still there and the node of `cat` is not. -/
theorem reachable_no_dangling_witness :
    Reachable (trieOf [("cat", "feline"), ("car", "vehicle")]) ∧
      ((deleteWord (trieOf [("cat", "feline"), ("car", "vehicle")]) "cat".toList).map
        fun t' => ((nodeAt t'.root "ca".toList).isNull, (nodeAt t'.root "cat".toList).isNull))
        = some (false, true) ∧
      ∀ q, q ≠ [] →
        (nodeAt (trieOf [("cat", "feline"), ("car", "vehicle")]).root q).isNull = false →
        ∃ s, (nodeAt (trieOf [("cat", "feline"), ("car", "vehicle")]).root (q ++ s)).isTerminal
          = true :=
  ⟨reachableWith_trieOf _ (fun _ _ => trivial), by decide,
    (reachable_no_dangling (trieOf [("cat", "feline"), ("car", "vehicle")])
      (reachableWith_trieOf _ (fun _ _ => trivial))).1⟩

/-- C18 as amended: in every trie reachable from the empty trie by `insertWord`,
`updateWord` and `deleteWord` where every meaning passed to `insertWord` and `updateWord`
is non-empty, every stored word's node is terminal and carries a non-empty meaning. -/
theorem reachable_nonempty_meanings (t : TrieTree)
    (hreach : ReachableWith (fun m => m ≠ []) t) :
    ∀ w, Stored t w →
      (nodeAt t.root w).isTerminal = true ∧ (nodeAt t.root w).meaningOf ≠ [] := by
  have hall : t.root.All (fun e m => e = true → m ≠ []) :=
    reachableWith_All (fun h => by cases h) (fun _ hm _ => hm) hreach
  intro w hw
  exact ⟨hw, meaningOf_of_All_terminal (All_nodeAt w _ hall) hw⟩

/-- Witness for C18 as amended: the trie holding `cat` with the meaning `feline`. -/
theorem reachable_nonempty_meanings_witness :
    ReachableWith (fun m => m ≠ []) (trieOf [("cat", "feline")]) ∧
      Stored (trieOf [("cat", "feline")]) "cat".toList ∧
      (nodeAt (trieOf [("cat", "feline")]).root "cat".toList).isTerminal = true ∧
      (nodeAt (trieOf [("cat", "feline")]).root "cat".toList).meaningOf ≠ [] :=
  ⟨reachableWith_trieOf _ (by decide), by decide,
    reachable_nonempty_meanings (trieOf [("cat", "feline")])
      (reachableWith_trieOf _ (by decide)) "cat".toList (by decide)⟩

/-- C18 as stated fails: the empty meaning passes validation, so after
`insertWord(a, "")` on the empty trie, which returns `true`, the stored word `a` carries an
empty meaning in a reachable trie. -/
theorem reachable_stored_word_empty_meaning :
    (insertWord TrieTree.new "a".toList "".toList).map Prod.fst = some true ∧
      ¬ (∀ t, Reachable t → ∀ w, Stored t w →
        (nodeAt t.root w).isTerminal = true ∧ (nodeAt t.root w).meaningOf ≠ []) := by
  refine ⟨by decide, ?_⟩
  intro h
  have h1 := h (trieOf [("a", "")]) (reachableWith_trieOf _ (fun _ _ => trivial))
    "a".toList (by decide)
  exact h1.2 (by decide)

/-- C20 (delete undoes insert on an unrelated word): for every trie `t` reachable from the
empty trie by the public operations, every lowercase word `w` such that no stored word of
`t` is a prefix of `w` (`w` itself and the empty word included) and `w` is a prefix of no
stored word of `t`, and every meaning `m`, the call `insertWord(w, m)` returns and
`deleteWord(w)` applied afterwards yields exactly the trie `t`. -/
theorem deleteWord_undoes_insertWord (t : TrieTree) (w m : List Char)
    (hreach : Reachable t) (hlow : IsLowercase w)
    (hnopre : ∀ u, Stored t u → ¬ u <+: w) (hnoext : ∀ v, Stored t v → ¬ w <+: v) :
    ∃ b t1, insertWord t w m = some (b, t1) ∧ (b = true ↔ IsAlphabetic m) ∧
      deleteWord t1 w = some t := by
  have hroot := reachableWith_root_ne_null hreach
  have hvw := (isValidWordOrMeaning_iff w).mpr hlow.isAlphabetic
  by_cases hm : IsAlphabetic m
  · have hvm := (isValidWordOrMeaning_iff m).mpr hm
    have hpre : ∀ q, q <+: w → (nodeAt t.root q).isTerminal = false :=
      fun q hq => isTerminal_eq_false_of_not (fun hterm => hnopre q hterm hq)
    cases w with
    | nil =>
      cases hr : t.root with
      | NULL => rw [hr] at hroot; simp [TrieTreeNode.isNull] at hroot
      | node d e m0 ch =>
        have he : e = false := by
          have := hpre [] List.nil_prefix
          rw [nodeAt_nil, hr] at this
          simpa [TrieTreeNode.isTerminal] using this
        have hall : t.root.All (fun e m => e = false → m = []) :=
          reachableWith_All (fun _ => rfl) (fun _ _ h => by cases h) hreach
        rw [hr] at hall
        have hm0 : m0 = [] := (All_node.mp hall).1 he
        subst he
        subst hm0
        refine ⟨true, ⟨.node d true m ch⟩, ?_, by simp [hm], ?_⟩
        · simp [insertWord, hvw, hvm, hr, insertWordLoop]
        · have ht : t = ⟨.node d false [] ch⟩ := by
            cases t
            simp only at hr
            rw [hr]
          simp [deleteWord, hvw, deleteWordHelper, ht]
    | cons c r =>
      have hnull : nodeAt t.root (c :: r) = .NULL := by
        apply eq_NULL_of_isNull
        by_contra hcon
        have hnn : (nodeAt t.root (c :: r)).isNull = false := by simpa using hcon
        obtain ⟨s, hs⟩ := Live_exists_terminal _
          (childrenLive_nonroot_live (reachableWith_childrenLive hreach)
            (List.cons_ne_nil c r)) hnn
        rw [← nodeAt_append] at hs
        exact hnoext _ hs (List.prefix_append _ _)
      obtain ⟨n1, hins, hdel⟩ := insertWordLoop_deleteWordHelper (c :: r) [] t.root m hlow
        hroot (reachableWith_childrenLive hreach) hpre hnull
      simp only [List.nil_append, List.length_nil] at hdel
      refine ⟨true, ⟨n1⟩, ?_, by simp [hm], ?_⟩
      · simp [insertWord, hvw, hvm, hins]
      · simp [deleteWord, hvw, hdel]
  · refine ⟨false, t, ?_, by simp [hm], ?_⟩
    · have hv : (isValidWordOrMeaning w && isValidWordOrMeaning m) = false := by
        rw [Bool.eq_false_iff]
        intro hb
        rw [Bool.and_eq_true] at hb
        exact hm ((isValidWordOrMeaning_iff m).mp hb.2)
      simp [insertWord, hv]
    · exact deleteWord_not_stored t w hlow (fun hst => hnopre w hst (List.prefix_refl w))

/-- Witness for C20: `cab` is inserted into, and deleted from, the trie holding `cat` and
`car`. -/
theorem deleteWord_undoes_insertWord_witness :
    Reachable (trieOf [("cat", "feline"), ("car", "vehicle")]) ∧ IsLowercase "cab".toList ∧
      (∀ u, Stored (trieOf [("cat", "feline"), ("car", "vehicle")]) u → ¬ u <+: "cab".toList) ∧
      (∀ v, Stored (trieOf [("cat", "feline"), ("car", "vehicle")]) v → ¬ "cab".toList <+: v) ∧
      ∃ b t1, insertWord (trieOf [("cat", "feline"), ("car", "vehicle")]) "cab".toList
          "taxi".toList = some (b, t1) ∧
        (b = true ↔ IsAlphabetic "taxi".toList) ∧
        deleteWord t1 "cab".toList = some (trieOf [("cat", "feline"), ("car", "vehicle")]) :=
  ⟨reachableWith_trieOf _ (fun _ _ => trivial), by decide,
    not_stored_prefix_of_inits (by decide), not_stored_extension_of_null (by decide),
    deleteWord_undoes_insertWord (trieOf [("cat", "feline"), ("car", "vehicle")])
      "cab".toList "taxi".toList (reachableWith_trieOf _ (fun _ _ => trivial)) (by decide)
      (not_stored_prefix_of_inits (by decide)) (not_stored_extension_of_null (by decide))⟩

end TrieCpp
